import Mathlib

/-!
Verification of the TFT team-search engine (`src/js/logic.js`, second revision).

The JavaScript source is shallowly embedded: champions, requirement rows and
result records become structures; the mutable search (`solve_depth_limited`
with backtracking) becomes a pure function threading an explicit state, where
backtracking is modelled by restoring every component except the accumulated
`results` list.  JavaScript 32-bit shifts (`1 << id`) are modelled as
`2 ^ (id % 32)` on `Nat`; `|`, `&` become `Nat.lor` / `Nat.land`, which agree
with the JS `Int32` bit patterns for the operations the code uses.  The JS
`Set` objects (locked / banned / dedup) are modelled as lists with structural
membership.  Counters held in `Int8Array`s in the source (`neededCounts`,
the per-champion `tCounts`, `currentCounts`) wrap on every store: a write of
`v` stores `toInt8 v = (v + 128) % 256 - 128`, the ECMAScript ToInt8
conversion, and the model applies the same wrap at every such store.
-/

/-- A raw champion record as found in the data pool.
`slots` is `none` when the JS object has no `slots` field;
`traitCounts` is the champion's per-trait override table. -/
structure Champ where
  name : String
  cost : Int
  slots : Option Nat
  traits : List String
  traitCounts : List (String × Int)
deriving DecidableEq

/-- One caller requirement row `{ trait, target }`. -/
structure Req where
  trait : String
  target : Int
deriving DecidableEq

/-- A result record pushed by `solve_depth_limited`:
a team snapshot, its synergy score and its total economic cost. -/
structure SearchResult where
  team : List Champ
  score : Nat
  totalCost : Int
deriving DecidableEq

/-- `MAX_RESULTS = 50` (logic.js line 506). -/
def MAX_RESULTS : Nat := 50

/-- The ECMAScript ToInt8 conversion performed by every store into an
`Int8Array`: reduce mod 2^8 into the signed range [-128, 127]. -/
def toInt8 (x : Int) : Int := (x + 128) % 256 - 128

/-- The effect on one cell of `n` consecutive `arr[i] += d` stores on an
`Int8Array`: `n` wrapped additions of `d`. -/
def wrapAddN (d : Int) : Nat → Int → Int
  | 0, v => v
  | n + 1, v => wrapAddN d n (toInt8 (v + d))

/-- `c.slots || 1`: a missing or zero (falsy) slot count defaults to 1. -/
def champSlots (c : Champ) : Nat :=
  match c.slots with
  | none => 1
  | some 0 => 1
  | some (n+1) => n+1

/-- The trait catalog's key list, in object-insertion order
(`Object.keys(traitRules)`). -/
def tkeys (traitRules : List (String × List Int)) : List String :=
  traitRules.map (fun p => p.1)

/-- `traitToId[t]`: position of `t` in the key list, `none` when absent. -/
def traitToId (keys : List String) (t : String) : Option Nat :=
  if t ∈ keys then some (keys.indexOf t) else none

/-- `thresholds[i] = traitRules[traits[i]] || [2]`. -/
def buildThresholds (traitRules : List (String × List Int)) : List (List Int) :=
  (List.range (tkeys traitRules).length).map
    (fun i => ((traitRules.lookup ((tkeys traitRules).getD i "")).getD [2]))

/-- `tIds`: the champion's trait names mapped through `traitToId`,
unknown names dropped (`filter(id => id !== undefined)`). -/
def champTraitIds (keys : List String) (c : Champ) : List Nat :=
  c.traits.filterMap (traitToId keys)

/-- The per-trait contribution count for trait id `id`:
default 1, overridden by a truthy `c.traitCounts[traitName]` entry. -/
def champCountFor (keys : List String) (c : Champ) (id : Nat) : Int :=
  match c.traits.find? (fun t => traitToId keys t == some id) with
  | some tn =>
    match c.traitCounts.lookup tn with
    | some v => if v ≠ 0 then v else 1
    | none => 1
  | none => 1

/-- The `tCounts` Int8Array: `tCounts[id] = count` for each `id` in `tIds`;
the store wraps the count into the Int8 range. -/
def buildTCounts (keys : List String) (c : Champ) : List Int :=
  (champTraitIds keys c).foldl
    (fun arr id => arr.set id (toInt8 (champCountFor keys c id)))
    (List.replicate keys.length 0)

/-- The existence bitmask `tIds.reduce((m, id) => m | (1 << id), 0)`;
the JS shift count wraps at 32. -/
def champMask (keys : List String) (c : Champ) : Nat :=
  (champTraitIds keys c).foldl (fun m id => m ||| 2 ^ (id % 32)) 0

/-- The per-champion derived record built by `getOptimizedData`. -/
structure Cand where
  original : Champ
  id : Nat
  cost : Int
  slots : Nat
  traitIds : List Nat
  traitCounts : List Int
  mask : Nat
deriving DecidableEq

/-- One entry of `championData`. -/
def mkCand (keys : List String) (idx : Nat) (c : Champ) : Cand :=
  { original := c
    id := idx
    cost := c.cost
    slots := champSlots c
    traitIds := champTraitIds keys c
    traitCounts := buildTCounts keys c
    mask := champMask keys c }

/-- `championData = champions.map((c, idx) => ...)`. -/
def championData (keys : List String) (champions : List Champ) : List Cand :=
  champions.enum.map (fun p => mkCand keys p.1 p.2)

/-- `calcScoreOptimized`'s inner loop: scan the ascending thresholds,
add one per met threshold, stop at the first unmet one. -/
def tierScore (count : Int) : List Int → Nat
  | [] => 0
  | t :: ts => if t ≤ count then 1 + tierScore count ts else 0

/-- `calcScoreOptimized(currentCounts, thresholds)`. -/
def calcScoreOptimized (counts : List Int) (thresholds : List (List Int)) : Nat :=
  (List.range thresholds.length).foldl
    (fun score i =>
      let c := counts.getD i 0
      if 0 < c then score + tierScore c (thresholds.getD i []) else score)
    0

/-- Requirement preprocessing (`reqs.forEach(...)`): produces
`(neededCounts, neededMask, hasRequirements)`; a later entry for the same
trait overwrites the earlier one. -/
def reqState (keys : List String) (reqs : List Req) : List Int × Nat × Bool :=
  reqs.foldl
    (fun acc r =>
      match traitToId keys r.trait with
      | some id => (acc.1.set id (toInt8 r.target), acc.2.1 ||| 2 ^ (id % 32), true)
      | none => acc)
    (List.replicate keys.length 0, 0, false)

/-- Add one champion's trait contributions to the running count vector
(the `tIds.forEach(id => currentCounts[id] += count)` loop). -/
def applyChampCounts (keys : List String) (c : Champ) (counts : List Int) : List Int :=
  (champTraitIds keys c).foldl
    (fun cnts id => cnts.set id (toInt8 (cnts.getD id 0 + champCountFor keys c id)))
    counts

/-- The candidate-add loop
(`for id of cand.traitIds: currentCounts[id] += cand.traitCounts[id]`). -/
def applyCandCounts (cand : Cand) (counts : List Int) : List Int :=
  cand.traitIds.foldl
    (fun cnts id => cnts.set id (toInt8 (cnts.getD id 0 + cand.traitCounts.getD id 0)))
    counts

/-- The mutable search state of one `search` invocation. -/
structure SState where
  team : List Champ
  counts : List Int
  cost : Int
  slots : Nat
  results : List SearchResult
deriving DecidableEq

/-- One step of the locked-unit seeding loop; the first component is the
`activeLockedIds` dedup set. -/
def seedStep (keys : List String) (acc : List Champ × SState) (c : Champ) :
    List Champ × SState :=
  if acc.1.contains c then acc
  else
    (c :: acc.1,
      { team := acc.2.team ++ [c]
        counts := applyChampCounts keys c acc.2.counts
        cost := acc.2.cost + c.cost
        slots := acc.2.slots + champSlots c
        results := acc.2.results })

/-- The locked-unit seeding fold (`lockedSet.forEach(...)`). -/
def seedAcc (keys : List String) (lockedL : List Champ) : List Champ × SState :=
  lockedL.foldl (seedStep keys)
    ([], { team := [], counts := List.replicate keys.length 0
           cost := 0, slots := 0, results := [] })

/-- The search state right after locked-unit seeding. -/
def initState (keys : List String) (lockedL : List Champ) : SState :=
  (seedAcc keys lockedL).2

/-- The candidate filter (logic.js lines 477-492): exclude banned and locked
units; when requirements exist, keep only units whose mask intersects the
needed mask. -/
def candRaw (keys : List String) (champions lockedL bannedL : List Champ)
    (neededMask : Nat) (hasReq : Bool) : List Cand :=
  (championData keys champions).filter fun c =>
    if bannedL.contains c.original then false
    else if lockedL.contains c.original then false
    else if hasReq then c.mask &&& neededMask != 0
    else true

/-- Stable insertion for the cost-ascending candidate sort:
elements with strictly smaller cost stay in front, so equal-cost
elements keep their original relative order (JS `sort` is stable). -/
def insertByCost (x : Cand) : List Cand → List Cand
  | [] => [x]
  | y :: ys => if y.cost < x.cost then y :: insertByCost x ys else x :: y :: ys

/-- `candidates.sort((a, b) => a.cost - b.cost)` as a stable sort. -/
def sortByCost : List Cand → List Cand
  | [] => []
  | x :: xs => insertByCost x (sortByCost xs)

/-- The sorted candidate list actually searched. -/
def candListOf (keys : List String) (champions lockedL bannedL : List Champ)
    (neededMask : Nat) (hasReq : Bool) : List Cand :=
  sortByCost (candRaw keys champions lockedL bannedL neededMask hasReq)

/-- `suffixMasks[idx]`: OR of the masks of the candidates at index `idx`
and beyond. -/
def suffixOr : List Cand → Nat
  | [] => 0
  | c :: rest => suffixOr rest ||| c.mask

/-- `getUnsatisfiedMask()`: bit `i % 32` for every trait `i` whose target is
positive and not yet met. -/
def getUnsatisfiedMask (needed counts : List Int) : Nat :=
  (List.range needed.length).foldl
    (fun m i =>
      if 0 < needed.getD i 0 ∧ counts.getD i 0 < needed.getD i 0
      then m ||| 2 ^ (i % 32) else m)
    0

/-- The record pushed on `results` when the unsatisfied mask is empty. -/
def recordResult (ths : List (List Int)) (st : SState) : SearchResult :=
  { team := st.team
    score := calcScoreOptimized st.counts ths
    totalCost := st.cost }

/-- The state mutation performed by the add-branch of `solve_depth_limited`
(before its recursive call): push the unit, add its trait counts, cost and
slots. -/
def addState (st : SState) (cand : Cand) : SState :=
  { team := st.team ++ [cand.original]
    counts := applyCandCounts cand st.counts
    cost := st.cost + cand.cost
    slots := st.slots + cand.slots
    results := st.results }

/-- `solve_depth_limited(idx, allowedAdds)` (logic.js lines 563-616).
The candidate list plays the role of the index `idx` (its suffix from `idx`
on); backtracking is modelled by restoring every state component except
`results` after the add-branch. -/
def solveDL (needed : List Int) (ths : List (List Int)) (maxLevel : Nat) :
    List Cand → Nat → SState → SState
  | [], _, st =>
    if MAX_RESULTS * 2 ≤ st.results.length then st
    else if getUnsatisfiedMask needed st.counts = 0 then
      { st with results := st.results ++ [recordResult ths st] }
    else st
  | cand :: rest, allowedAdds, st =>
    if MAX_RESULTS * 2 ≤ st.results.length then st
    else if getUnsatisfiedMask needed st.counts = 0 then
      { st with results := st.results ++ [recordResult ths st] }
    else if allowedAdds = 0 then st
    else if maxLevel ≤ st.slots then st
    else if getUnsatisfiedMask needed st.counts &&& suffixOr (cand :: rest)
        ≠ getUnsatisfiedMask needed st.counts then st
    else
      let st1 :=
        if st.slots + cand.slots ≤ maxLevel then
          { st with results :=
              (solveDL needed ths maxLevel rest (allowedAdds - 1)
                (addState st cand)).results }
        else st
      solveDL needed ths maxLevel rest allowedAdds st1

/-- The iterative-deepening loop (logic.js lines 527-533): depths are tried
in increasing order and the loop stops as soon as `results` is non-empty. -/
def iddfsAux (needed : List Int) (ths : List (List Int)) (maxLevel : Nat)
    (cands : List Cand) : Nat → Nat → SState → SState
  | 0, _, st => st
  | fuel + 1, d, st =>
    if 0 < st.results.length then st
    else iddfsAux needed ths maxLevel cands fuel (d + 1)
      (solveDL needed ths maxLevel cands d st)

/-- The comparator of the final sort (logic.js lines 547-558), as the
strict "a comes before b" relation: team size ascending, then synergy score
descending, then total cost descending. -/
def resultLt (a b : SearchResult) : Bool :=
  if a.team.length = b.team.length then
    if a.score = b.score then b.totalCost < a.totalCost
    else b.score < a.score
  else a.team.length < b.team.length

/-- Stable insertion for the final result sort. -/
def insertResult (x : SearchResult) : List SearchResult → List SearchResult
  | [] => [x]
  | y :: ys => if resultLt y x then y :: insertResult x ys else x :: y :: ys

/-- `results.sort(comparator)` as a stable sort. -/
def sortResults : List SearchResult → List SearchResult
  | [] => []
  | r :: rs => insertResult r (sortResults rs)

/-- The body of `search` up to (and excluding) the final sort/slice, for a
preprocessed requirement triple. -/
def searchCore (traitRules : List (String × List Int)) (maxLevel : Nat)
    (lockedL bannedL champions : List Champ)
    (needed : List Int) (neededMask : Nat) (hasReq : Bool) : List SearchResult :=
  let keys := tkeys traitRules
  let st0 := initState keys lockedL
  if maxLevel < st0.slots then []
  else
    (iddfsAux needed (buildThresholds traitRules) maxLevel
      (candListOf keys champions lockedL bannedL neededMask hasReq)
      (maxLevel - st0.slots + 1) 0 st0).results

/-- The raw (pre-sort, pre-truncation) result list of one `search` call. -/
def searchRaw (traitRules : List (String × List Int)) (maxLevel : Nat)
    (reqs : List Req) (lockedL bannedL champions : List Champ) :
    List SearchResult :=
  let keys := tkeys traitRules
  searchCore traitRules maxLevel lockedL bannedL champions
    (reqState keys reqs).1 (reqState keys reqs).2.1 (reqState keys reqs).2.2

/-- `search(maxLevel, reqs, lockedSet, bannedSet, champions)`: the sorted
result list truncated to `MAX_RESULTS`. -/
def search (traitRules : List (String × List Int)) (maxLevel : Nat)
    (reqs : List Req) (lockedL bannedL champions : List Champ) :
    List SearchResult :=
  (sortResults (searchRaw traitRules maxLevel reqs lockedL bannedL champions)).take
    MAX_RESULTS

/-! ### The same search with the suffix-mask pruning check removed

`solveDLNP` is `solveDL` with the line
`if ((unsatisfied & suffixMasks[idx]) !== unsatisfied) return;` deleted;
everything else is untouched.  Used to settle the claim that the pruning is
semantically transparent. -/

/-- `solve_depth_limited` without the suffix-mask pruning check. -/
def solveDLNP (needed : List Int) (ths : List (List Int)) (maxLevel : Nat) :
    List Cand → Nat → SState → SState
  | [], _, st =>
    if MAX_RESULTS * 2 ≤ st.results.length then st
    else if getUnsatisfiedMask needed st.counts = 0 then
      { st with results := st.results ++ [recordResult ths st] }
    else st
  | cand :: rest, allowedAdds, st =>
    if MAX_RESULTS * 2 ≤ st.results.length then st
    else if getUnsatisfiedMask needed st.counts = 0 then
      { st with results := st.results ++ [recordResult ths st] }
    else if allowedAdds = 0 then st
    else if maxLevel ≤ st.slots then st
    else
      let st1 :=
        if st.slots + cand.slots ≤ maxLevel then
          { st with results :=
              (solveDLNP needed ths maxLevel rest (allowedAdds - 1)
                (addState st cand)).results }
        else st
      solveDLNP needed ths maxLevel rest allowedAdds st1

/-- The iterative-deepening loop driving `solveDLNP`. -/
def iddfsAuxNP (needed : List Int) (ths : List (List Int)) (maxLevel : Nat)
    (cands : List Cand) : Nat → Nat → SState → SState
  | 0, _, st => st
  | fuel + 1, d, st =>
    if 0 < st.results.length then st
    else iddfsAuxNP needed ths maxLevel cands fuel (d + 1)
      (solveDLNP needed ths maxLevel cands d st)

/-- `search` with the suffix-mask pruning check removed. -/
def searchNoPrune (traitRules : List (String × List Int)) (maxLevel : Nat)
    (reqs : List Req) (lockedL bannedL champions : List Champ) :
    List SearchResult :=
  let keys := tkeys traitRules
  let needed := (reqState keys reqs).1
  let st0 := initState keys lockedL
  let raw :=
    if maxLevel < st0.slots then []
    else
      (iddfsAuxNP needed (buildThresholds traitRules) maxLevel
        (candListOf keys champions lockedL bannedL
          (reqState keys reqs).2.1 (reqState keys reqs).2.2)
        (maxLevel - st0.slots + 1) 0 st0).results
  (sortResults raw).take MAX_RESULTS

/-! ### Specification-level aggregates

These definitions restate, directly over a raw team (a list of `Champ`),
the aggregates that the search maintains incrementally: per-trait counts,
slot totals and economic cost.  They are used to phrase the claims. -/

/-- The total contribution of champion `c` to trait id `i`: its per-trait
count, once per occurrence of `i` in the champion's trait-id list. -/
def champContribAt (keys : List String) (c : Champ) (i : Nat) : Int :=
  ((champTraitIds keys c).count i : Int) * champCountFor keys c i

/-- The aggregate count of trait id `i` over a team. -/
def teamCountAt (keys : List String) (team : List Champ) (i : Nat) : Int :=
  (team.map (fun c => champContribAt keys c i)).sum

/-- The count vector of a team, built exactly the way the search builds it. -/
def teamCountsVec (keys : List String) (team : List Champ) : List Int :=
  team.foldl (fun cnts c => applyChampCounts keys c cnts)
    (List.replicate keys.length 0)

/-- The slot total of a team. -/
def teamSlots (team : List Champ) : Nat := (team.map champSlots).sum

/-- The total economic cost of a team. -/
def teamCost (team : List Champ) : Int := (team.map (fun c => c.cost)).sum

/-- The contribution of a derived candidate record to trait id `i`. -/
def candContribAt (c : Cand) (i : Nat) : Int :=
  (c.traitIds.count i : Int) * c.traitCounts.getD i 0

/-- Extend a search state by adding a list of candidates in order
(the state reached by taking those add-branches). -/
def extendState (st : SState) (ext : List Cand) : SState :=
  ext.foldl addState st

/-! ### Abbreviations for the pieces of one `search` invocation -/

/-- The `neededCounts` vector of a call. -/
def neededOf (traitRules : List (String × List Int)) (reqs : List Req) :
    List Int :=
  (reqState (tkeys traitRules) reqs).1

/-- The `neededMask` of a call. -/
def nmaskOf (traitRules : List (String × List Int)) (reqs : List Req) : Nat :=
  (reqState (tkeys traitRules) reqs).2.1

/-- The `hasRequirements` flag of a call. -/
def hasReqOf (traitRules : List (String × List Int)) (reqs : List Req) : Bool :=
  (reqState (tkeys traitRules) reqs).2.2

/-- The seeded initial state of a call. -/
def st0Of (traitRules : List (String × List Int)) (lockedL : List Champ) :
    SState :=
  initState (tkeys traitRules) lockedL

/-- The sorted candidate list of a call. -/
def candsOf (traitRules : List (String × List Int)) (reqs : List Req)
    (lockedL bannedL champions : List Champ) : List Cand :=
  candListOf (tkeys traitRules) champions lockedL bannedL
    (nmaskOf traitRules reqs) (hasReqOf traitRules reqs)

/-! ### Concrete inputs used by counterexamples and witnesses -/

/-- A one-trait catalog. -/
def rulesX : List (String × List Int) := [("X", [2])]

/-- A two-trait catalog. -/
def rulesXY : List (String × List Int) := [("X", [2]), ("Y", [3])]

/-- A cheap unit named `n` contributing once to trait `"X"`. -/
def champU (n : String) : Champ :=
  { name := n, cost := 1, slots := none, traits := ["X"], traitCounts := [] }

/-- A cheap unit overriding its contribution to trait `"X"` to 130 — a
well-formed positive count that does not fit in an Int8Array cell. -/
def champO : Champ :=
  { name := "o", cost := 1, slots := none, traits := ["X"],
    traitCounts := [("X", 130)] }

/-- A unit contributing once to the single trait `t`. -/
def champT (t : String) : Champ :=
  { name := t, cost := 1, slots := none, traits := [t], traitCounts := [] }

/-- A 33-trait catalog, one more trait than the 32-bit mask width. -/
def rules33 : List (String × List Int) :=
  [("t0", [2]), ("t1", [2]), ("t2", [2]), ("t3", [2]), ("t4", [2]),
   ("t5", [2]), ("t6", [2]), ("t7", [2]), ("t8", [2]), ("t9", [2]),
   ("t10", [2]), ("t11", [2]), ("t12", [2]), ("t13", [2]), ("t14", [2]),
   ("t15", [2]), ("t16", [2]), ("t17", [2]), ("t18", [2]), ("t19", [2]),
   ("t20", [2]), ("t21", [2]), ("t22", [2]), ("t23", [2]), ("t24", [2]),
   ("t25", [2]), ("t26", [2]), ("t27", [2]), ("t28", [2]), ("t29", [2]),
   ("t30", [2]), ("t31", [2]), ("t32", [2])]

/-! ## Basic list lemmas -/

theorem getD_set_self (l : List Int) (i : Nat) (v : Int) (h : i < l.length) :
    (l.set i v).getD i 0 = v := by
  rw [List.getD_eq_getElem?_getD, List.getElem?_set_self h]
  rfl

theorem getD_set_ne (l : List Int) {i j : Nat} (v : Int) (h : i ≠ j) :
    (l.set i v).getD j 0 = l.getD j 0 := by
  rw [List.getD_eq_getElem?_getD, List.getElem?_set_ne h,
    ← List.getD_eq_getElem?_getD]

theorem getD_replicate_zero (n i : Nat) :
    (List.replicate n (0 : Int)).getD i 0 = 0 := by
  rw [List.getD_eq_getElem?_getD]
  by_cases h : i < n
  · rw [List.getElem?_replicate_of_lt h]
    rfl
  · rw [List.getElem?_eq_none (by simpa using Nat.le_of_not_lt h)]
    rfl

theorem contains_iff_mem {α : Type} [DecidableEq α] (l : List α) (a : α) :
    l.contains a = true ↔ a ∈ l := by
  simp [List.contains, List.elem_iff]

theorem foldl_congr_mem {α β : Type} {l : List α} {f g : β → α → β} {a : β}
    (h : ∀ b x, x ∈ l → f b x = g b x) : l.foldl f a = l.foldl g a := by
  induction l generalizing a with
  | nil => rfl
  | cons x xs ih =>
    simp only [List.foldl_cons]
    rw [h a x (by simp)]
    exact ih (fun b y hy => h b y (by simp [hy]))

/-! ## Pointwise lemmas about the count-vector updates -/

theorem toInt8_zero : toInt8 0 = 0 := by decide

theorem toInt8_add_right (v d : Int) :
    toInt8 (v + toInt8 d) = toInt8 (v + d) := by
  unfold toInt8
  omega

theorem foldl_wrapset_length (l : List Nat) (f : Nat → Int) (counts : List Int) :
    (l.foldl (fun cnts id => cnts.set id (toInt8 (cnts.getD id 0 + f id)))
        counts).length
      = counts.length := by
  induction l generalizing counts with
  | nil => rfl
  | cons id tl ih =>
    rw [List.foldl_cons, ih, List.length_set]

theorem foldl_wrapset_getD (l : List Nat) (f : Nat → Int) (counts : List Int)
    (i : Nat) (hl : ∀ id ∈ l, id < counts.length) :
    (l.foldl (fun cnts id => cnts.set id (toInt8 (cnts.getD id 0 + f id)))
        counts).getD i 0
      = wrapAddN (f i) (l.count i) (counts.getD i 0) := by
  induction l generalizing counts with
  | nil => rfl
  | cons id tl ih =>
    rw [List.foldl_cons, ih _ (fun x hx => by
      rw [List.length_set]
      exact hl x (List.mem_cons_of_mem _ hx))]
    by_cases hid : id = i
    · subst hid
      rw [getD_set_self _ _ _ (hl id (List.mem_cons_self _ _)),
        List.count_cons_self]
      rfl
    · rw [getD_set_ne _ _ hid,
        List.count_cons_of_ne (fun he => hid he.symm)]

theorem applyCandCounts_length (cand : Cand) (counts : List Int) :
    (applyCandCounts cand counts).length = counts.length :=
  foldl_wrapset_length _ _ _

theorem applyChampCounts_length (keys : List String) (c : Champ)
    (counts : List Int) :
    (applyChampCounts keys c counts).length = counts.length :=
  foldl_wrapset_length _ _ _

theorem applyCandCounts_getD_wrap (cand : Cand) (counts : List Int) (i : Nat)
    (hl : ∀ id ∈ cand.traitIds, id < counts.length) :
    (applyCandCounts cand counts).getD i 0
      = wrapAddN (cand.traitCounts.getD i 0) (cand.traitIds.count i)
          (counts.getD i 0) :=
  foldl_wrapset_getD _ _ _ _ hl

theorem traitToId_lt (keys : List String) (t : String) (id : Nat)
    (h : traitToId keys t = some id) : id < keys.length := by
  unfold traitToId at h
  split at h
  · cases h
    exact List.indexOf_lt_length.mpr (by assumption)
  · cases h

theorem champTraitIds_lt (keys : List String) (c : Champ) (id : Nat)
    (h : id ∈ champTraitIds keys c) : id < keys.length := by
  unfold champTraitIds at h
  obtain ⟨t, _, ht⟩ := List.mem_filterMap.mp h
  exact traitToId_lt keys t id ht

/-! ## Bitmask characterizations -/

theorem testBit_foldl_or (l : List Nat) (g : Nat → Nat) (a : Nat) (b : Nat) :
    ((l.foldl (fun m id => m ||| 2 ^ g id) a).testBit b = true)
      ↔ (a.testBit b = true ∨ ∃ id ∈ l, g id = b) := by
  induction l generalizing a with
  | nil => simp
  | cons x xs ih =>
    rw [List.foldl_cons, ih]
    rw [Nat.testBit_lor]
    simp only [Bool.or_eq_true, Nat.testBit_two_pow, decide_eq_true_eq,
      List.mem_cons]
    constructor
    · rintro (⟨h | h⟩ | ⟨id, hid, hg⟩)
      · exact Or.inl h
      · exact Or.inr ⟨x, Or.inl rfl, h⟩
      · exact Or.inr ⟨id, Or.inr hid, hg⟩
    · rintro (h | ⟨id, (rfl | hid), hg⟩)
      · exact Or.inl (Or.inl h)
      · exact Or.inl (Or.inr hg)
      · exact Or.inr ⟨id, hid, hg⟩

theorem testBit_champMask (keys : List String) (c : Champ) (b : Nat) :
    ((champMask keys c).testBit b = true)
      ↔ ∃ id ∈ champTraitIds keys c, id % 32 = b := by
  unfold champMask
  rw [testBit_foldl_or]
  simp

theorem testBit_suffixOr (l : List Cand) (b : Nat) :
    ((suffixOr l).testBit b = true) ↔ ∃ c ∈ l, c.mask.testBit b = true := by
  induction l with
  | nil => simp [suffixOr]
  | cons c rest ih =>
    rw [suffixOr, Nat.testBit_lor]
    simp only [Bool.or_eq_true, ih, List.mem_cons]
    constructor
    · rintro (⟨d, hd, hm⟩ | h)
      · exact ⟨d, Or.inr hd, hm⟩
      · exact ⟨c, Or.inl rfl, h⟩
    · rintro ⟨d, (rfl | hd), hm⟩
      · exact Or.inr hm
      · exact Or.inl ⟨d, hd, hm⟩

theorem testBit_foldl_or_if (l : List Nat) (p : Nat → Prop) [DecidablePred p]
    (a : Nat) (b : Nat) :
    ((l.foldl (fun m i => if p i then m ||| 2 ^ (i % 32) else m) a).testBit b
        = true)
      ↔ (a.testBit b = true ∨ ∃ i ∈ l, p i ∧ i % 32 = b) := by
  induction l generalizing a with
  | nil => simp
  | cons x xs ih =>
    rw [List.foldl_cons, ih]
    by_cases hx : p x
    · rw [if_pos hx, Nat.testBit_lor]
      simp only [Bool.or_eq_true, Nat.testBit_two_pow, decide_eq_true_eq,
        List.mem_cons]
      constructor
      · rintro (⟨h | h⟩ | ⟨i, hi, hp, hg⟩)
        · exact Or.inl h
        · exact Or.inr ⟨x, Or.inl rfl, hx, h⟩
        · exact Or.inr ⟨i, Or.inr hi, hp, hg⟩
      · rintro (h | ⟨i, (rfl | hi), hp, hg⟩)
        · exact Or.inl (Or.inl h)
        · exact Or.inl (Or.inr hg)
        · exact Or.inr ⟨i, hi, hp, hg⟩
    · rw [if_neg hx]
      simp only [List.mem_cons]
      constructor
      · rintro (h | ⟨i, hi, hp, hg⟩)
        · exact Or.inl h
        · exact Or.inr ⟨i, Or.inr hi, hp, hg⟩
      · rintro (h | ⟨i, (rfl | hi), hp, hg⟩)
        · exact Or.inl h
        · exact absurd hp hx
        · exact Or.inr ⟨i, hi, hp, hg⟩

theorem testBit_unsat (needed counts : List Int) (b : Nat) :
    ((getUnsatisfiedMask needed counts).testBit b = true)
      ↔ ∃ i < needed.length, (0 < needed.getD i 0
          ∧ counts.getD i 0 < needed.getD i 0) ∧ i % 32 = b := by
  unfold getUnsatisfiedMask
  rw [testBit_foldl_or_if]
  simp [List.mem_range]

theorem nat_ne_zero_of_testBit {m : Nat} {b : Nat} (h : m.testBit b = true) :
    m ≠ 0 := by
  intro h0
  rw [h0, Nat.zero_testBit] at h
  cases h

theorem nat_eq_zero_of_testBit (m : Nat)
    (h : ∀ b, m.testBit b = false) : m = 0 :=
  Nat.eq_of_testBit_eq (fun i => by rw [h i, Nat.zero_testBit])

theorem unsat_eq_zero_iff (needed counts : List Int) :
    getUnsatisfiedMask needed counts = 0
      ↔ ∀ i < needed.length, 0 < needed.getD i 0
          → needed.getD i 0 ≤ counts.getD i 0 := by
  constructor
  · intro h i hi hpos
    by_contra hlt
    have hb : (getUnsatisfiedMask needed counts).testBit (i % 32) = true :=
      (testBit_unsat needed counts (i % 32)).mpr
        ⟨i, hi, ⟨hpos, Int.not_le.mp hlt⟩, rfl⟩
    exact nat_ne_zero_of_testBit hb h
  · intro h
    apply nat_eq_zero_of_testBit
    intro b
    by_contra hb
    obtain ⟨i, hi, ⟨hpos, hlt⟩, _⟩ :=
      (testBit_unsat needed counts b).mp (Bool.of_not_eq_false hb)
    exact absurd (h i hi hpos) (Int.not_le.mpr hlt)

theorem land_ne_self_iff (u s : Nat) :
    u &&& s ≠ u ↔ ∃ b, u.testBit b = true ∧ s.testBit b = false := by
  constructor
  · intro h
    by_contra hall
    push_neg at hall
    apply h
    apply Nat.eq_of_testBit_eq
    intro b
    rw [Nat.testBit_land]
    cases hu : u.testBit b with
    | false => simp
    | true =>
      have := hall b hu
      simp [eq_true_of_ne_false this]
  · rintro ⟨b, hu, hs⟩ heq
    have : (u &&& s).testBit b = u.testBit b := by rw [heq]
    rw [Nat.testBit_land, hu, hs] at this
    cases this

/-! ## State-extension lemmas -/

theorem extendState_nil (st : SState) : extendState st [] = st := rfl

theorem extendState_cons (st : SState) (c : Cand) (ext : List Cand) :
    extendState st (c :: ext) = extendState (addState st c) ext := rfl

theorem extendState_results (st : SState) (ext : List Cand) :
    (extendState st ext).results = st.results := by
  induction ext generalizing st with
  | nil => rfl
  | cons c tl ih => rw [extendState_cons, ih]; rfl

theorem extendState_team (st : SState) (ext : List Cand) :
    (extendState st ext).team = st.team ++ ext.map (fun c => c.original) := by
  induction ext generalizing st with
  | nil => simp [extendState_nil]
  | cons c tl ih => rw [extendState_cons, ih]; simp [addState]

theorem extendState_slots (st : SState) (ext : List Cand) :
    (extendState st ext).slots = st.slots + (ext.map (fun c => c.slots)).sum := by
  induction ext generalizing st with
  | nil => simp [extendState_nil]
  | cons c tl ih => rw [extendState_cons, ih]; simp [addState]; ring

theorem extendState_cost (st : SState) (ext : List Cand) :
    (extendState st ext).cost = st.cost + (ext.map (fun c => c.cost)).sum := by
  induction ext generalizing st with
  | nil => simp [extendState_nil]
  | cons c tl ih => rw [extendState_cons, ih]; simp [addState]; ring

theorem extendState_counts_length (st : SState) (ext : List Cand) :
    (extendState st ext).counts.length = st.counts.length := by
  induction ext generalizing st with
  | nil => rfl
  | cons c tl ih =>
    rw [extendState_cons, ih]
    exact applyCandCounts_length _ _

theorem extendState_set_results (st : SState) (R : List SearchResult)
    (ext : List Cand) :
    extendState { st with results := R } ext
      = { extendState st ext with results := R } := by
  induction ext generalizing st with
  | nil => rfl
  | cons c tl ih =>
    rw [extendState_cons, extendState_cons]
    have : addState { st with results := R } c
        = { addState st c with results := R } := rfl
    rw [this, ih]

theorem extendState_counts_getD_wrap (st : SState) (ext : List Cand) (i : Nat)
    (hl : ∀ c ∈ ext, ∀ id ∈ c.traitIds, id < st.counts.length) :
    (extendState st ext).counts.getD i 0
      = ext.foldl (fun v c => wrapAddN (c.traitCounts.getD i 0)
          (c.traitIds.count i) v) (st.counts.getD i 0) := by
  induction ext generalizing st with
  | nil => rfl
  | cons c tl ih =>
    rw [extendState_cons, List.foldl_cons,
      ih (addState st c) (fun d hd id hid => by
        have hlen : (addState st c).counts.length = st.counts.length :=
          applyCandCounts_length _ _
        rw [hlen]
        exact hl d (List.mem_cons_of_mem _ hd) id hid)]
    congr 1
    exact applyCandCounts_getD_wrap c st.counts i
      (hl c (List.mem_cons_self _ _))

/-! ## Counts untouched by units that lack a trait -/

theorem foldl_wrapset_getD_not_mem (l : List Nat) (f : Nat → Int)
    (counts : List Int) (i : Nat) (h : i ∉ l) :
    (l.foldl (fun cnts id => cnts.set id (toInt8 (cnts.getD id 0 + f id)))
        counts).getD i 0
      = counts.getD i 0 := by
  induction l generalizing counts with
  | nil => rfl
  | cons id tl ih =>
    rw [List.foldl_cons, ih _ (fun hm => h (by simp [hm]))]
    exact getD_set_ne _ _ (fun he => h (by simp [he]))

theorem applyCandCounts_getD_not_mem (cand : Cand) (counts : List Int) (i : Nat)
    (h : i ∉ cand.traitIds) :
    (applyCandCounts cand counts).getD i 0 = counts.getD i 0 :=
  foldl_wrapset_getD_not_mem _ _ _ _ h

/-! ## Bridging `Cand` records back to their champions -/

theorem foldl_set_getD_not_mem (l : List Nat) (f : Nat → Int) (init : List Int)
    (i : Nat) (h : i ∉ l) :
    (l.foldl (fun a id => a.set id (f id)) init).getD i 0 = init.getD i 0 := by
  induction l generalizing init with
  | nil => rfl
  | cons id tl ih =>
    rw [List.foldl_cons, ih _ (fun hm => h (by simp [hm]))]
    exact getD_set_ne _ _ (fun he => h (by simp [he]))

theorem foldl_set_getD_mem (l : List Nat) (f : Nat → Int) (init : List Int)
    (i : Nat) (hi : i < init.length) (hm : i ∈ l) :
    (l.foldl (fun a id => a.set id (f id)) init).getD i 0 = f i := by
  induction l generalizing init with
  | nil => cases hm
  | cons id tl ih =>
    rw [List.foldl_cons]
    by_cases hmem : i ∈ tl
    · exact ih _ (by rw [List.length_set]; exact hi) hmem
    · have hii : i = id := by
        rcases List.mem_cons.mp hm with h | h
        · exact h
        · exact absurd h hmem
      subst hii
      rw [foldl_set_getD_not_mem _ _ _ _ hmem]
      exact getD_set_self _ _ _ hi

theorem buildTCounts_length (keys : List String) (c : Champ) :
    (buildTCounts keys c).length = keys.length := by
  unfold buildTCounts
  have : ∀ (l : List Nat) (init : List Int),
      (l.foldl (fun a id => a.set id (toInt8 (champCountFor keys c id))) init).length
        = init.length := by
    intro l
    induction l with
    | nil => intro init; rfl
    | cons x xs ih => intro init; rw [List.foldl_cons, ih, List.length_set]
  rw [this]
  exact List.length_replicate _ _

theorem buildTCounts_getD (keys : List String) (c : Champ) (id : Nat)
    (hid : id ∈ champTraitIds keys c) :
    (buildTCounts keys c).getD id 0 = toInt8 (champCountFor keys c id) := by
  unfold buildTCounts
  exact foldl_set_getD_mem _ _ _ _
    (by rw [List.length_replicate]; exact champTraitIds_lt keys c id hid) hid

theorem applyCandCounts_mkCand (keys : List String) (idx : Nat) (c : Champ)
    (counts : List Int) :
    applyCandCounts (mkCand keys idx c) counts = applyChampCounts keys c counts := by
  unfold applyCandCounts applyChampCounts mkCand
  exact foldl_congr_mem (fun b id hid => by
    rw [buildTCounts_getD keys c id hid, toInt8_add_right])

/-! ## Team count vectors -/

theorem teamCountsVec_length (keys : List String) (team : List Champ) :
    (teamCountsVec keys team).length = keys.length := by
  unfold teamCountsVec
  have : ∀ (t : List Champ) (init : List Int),
      (t.foldl (fun cnts c => applyChampCounts keys c cnts) init).length
        = init.length := by
    intro t
    induction t with
    | nil => intro init; rfl
    | cons c tl ih =>
      intro init
      rw [List.foldl_cons, ih, applyChampCounts_length]
  rw [this]
  exact List.length_replicate _ _

theorem teamCountsVec_concat (keys : List String) (team : List Champ)
    (c : Champ) :
    teamCountsVec keys (team ++ [c])
      = applyChampCounts keys c (teamCountsVec keys team) := by
  unfold teamCountsVec
  rw [List.foldl_append]
  rfl

theorem teamCountAt_append (keys : List String) (t1 t2 : List Champ) (i : Nat) :
    teamCountAt keys (t1 ++ t2) i
      = teamCountAt keys t1 i + teamCountAt keys t2 i := by
  unfold teamCountAt
  rw [List.map_append, List.sum_append]

theorem teamSlots_append (t1 t2 : List Champ) :
    teamSlots (t1 ++ t2) = teamSlots t1 + teamSlots t2 := by
  unfold teamSlots
  rw [List.map_append, List.sum_append]

theorem teamCost_append (t1 t2 : List Champ) :
    teamCost (t1 ++ t2) = teamCost t1 + teamCost t2 := by
  unfold teamCost
  rw [List.map_append, List.sum_append]

/-! ## Congruence for the unsatisfied mask -/

theorem unsat_congr (needed c1 c2 : List Int)
    (h : ∀ i, i < needed.length → 0 < needed.getD i 0
        → c1.getD i 0 = c2.getD i 0) :
    getUnsatisfiedMask needed c1 = getUnsatisfiedMask needed c2 := by
  unfold getUnsatisfiedMask
  apply foldl_congr_mem
  intro m i hi
  have hi' : i < needed.length := List.mem_range.mp hi
  by_cases hp : 0 < needed.getD i 0
  · rw [h i hi' hp]
  · rw [if_neg (fun hc => hp hc.1), if_neg (fun hc => hp hc.1)]

/-! ## Structural lemmas about `solve_depth_limited` -/

theorem solveDL_nil (needed : List Int) (ths : List (List Int)) (maxLevel : Nat)
    (k : Nat) (st : SState) :
    solveDL needed ths maxLevel [] k st
      = if MAX_RESULTS * 2 ≤ st.results.length then st
        else if getUnsatisfiedMask needed st.counts = 0 then
          { st with results := st.results ++ [recordResult ths st] }
        else st := by
  rfl

theorem solveDL_cons (needed : List Int) (ths : List (List Int)) (maxLevel : Nat)
    (cand : Cand) (rest : List Cand) (allowedAdds : Nat) (st : SState) :
    solveDL needed ths maxLevel (cand :: rest) allowedAdds st
      = if MAX_RESULTS * 2 ≤ st.results.length then st
        else if getUnsatisfiedMask needed st.counts = 0 then
          { st with results := st.results ++ [recordResult ths st] }
        else if allowedAdds = 0 then st
        else if maxLevel ≤ st.slots then st
        else if getUnsatisfiedMask needed st.counts &&& suffixOr (cand :: rest)
            ≠ getUnsatisfiedMask needed st.counts then st
        else
          solveDL needed ths maxLevel rest allowedAdds
            (if st.slots + cand.slots ≤ maxLevel then
              { st with results :=
                  (solveDL needed ths maxLevel rest (allowedAdds - 1)
                    (addState st cand)).results }
            else st) := by
  rfl

theorem recordResult_set_results (ths : List (List Int)) (st : SState)
    (R : List SearchResult) :
    recordResult ths { st with results := R } = recordResult ths st := rfl

theorem solveDL_shape (needed : List Int) (ths : List (List Int))
    (maxLevel : Nat) (cands : List Cand) :
    ∀ (k : Nat) (st : SState), ∃ new,
      solveDL needed ths maxLevel cands k st
        = { st with results := st.results ++ new } := by
  induction cands with
  | nil =>
    intro k st
    rw [solveDL_nil]
    split_ifs with h1 h2
    · exact ⟨[], by simp⟩
    · exact ⟨[recordResult ths st], rfl⟩
    · exact ⟨[], by simp⟩
  | cons cand rest ih =>
    intro k st
    rw [solveDL_cons]
    split_ifs with h1 h2 h3 h4 h5 hg
    · exact ⟨[], by simp⟩
    · exact ⟨[recordResult ths st], rfl⟩
    · exact ⟨[], by simp⟩
    · exact ⟨[], by simp⟩
    · exact ⟨[], by simp⟩
    · obtain ⟨n1, e1⟩ := ih (k - 1) (addState st cand)
      obtain ⟨n2, e2⟩ := ih k { st with results := st.results ++ n1 }
      have hres : (solveDL needed ths maxLevel rest (k - 1)
          (addState st cand)).results = st.results ++ n1 := by
        rw [e1]
        rfl
      rw [hres, e2]
      exact ⟨n1 ++ n2, by simp⟩
    · obtain ⟨n2, e2⟩ := ih k st
      exact ⟨n2, e2⟩

theorem solveDL_results_append (needed : List Int) (ths : List (List Int))
    (maxLevel : Nat) (cands : List Cand) (k : Nat) (st : SState) :
    ∃ new, (solveDL needed ths maxLevel cands k st).results
      = st.results ++ new := by
  obtain ⟨new, e⟩ := solveDL_shape needed ths maxLevel cands k st
  exact ⟨new, by rw [e]⟩

theorem solveDL_results_ne_nil (needed : List Int) (ths : List (List Int))
    (maxLevel : Nat) (cands : List Cand) (k : Nat) (st : SState)
    (h : st.results ≠ []) :
    (solveDL needed ths maxLevel cands k st).results ≠ [] := by
  obtain ⟨new, e⟩ := solveDL_results_append needed ths maxLevel cands k st
  rw [e]
  intro hc
  exact h (List.append_eq_nil.mp hc).1

/-- Soundness of `solve_depth_limited`: every result present afterwards was
either present before, or is the record of the state extended by a sublist of
the remaining candidates of length at most the remaining depth, whose
unsatisfied mask is empty and whose slot total is within the budget. -/
theorem solveDL_sound (needed : List Int) (ths : List (List Int))
    (maxLevel : Nat) (cands : List Cand) :
    ∀ (k : Nat) (st : SState), st.slots ≤ maxLevel →
      ∀ r ∈ (solveDL needed ths maxLevel cands k st).results,
        r ∈ st.results ∨ ∃ ext, ext.Sublist cands ∧ ext.length ≤ k
          ∧ r = recordResult ths (extendState st ext)
          ∧ getUnsatisfiedMask needed (extendState st ext).counts = 0
          ∧ (extendState st ext).slots ≤ maxLevel := by
  induction cands with
  | nil =>
    intro k st hslots r hr
    rw [solveDL_nil] at hr
    split_ifs at hr with h1 h2
    · exact Or.inl hr
    · rcases List.mem_append.mp hr with h | h
      · exact Or.inl h
      · refine Or.inr ⟨[], List.Sublist.refl _, by simp, ?_, ?_, ?_⟩
        · rw [extendState_nil]
          simpa using h
        · rw [extendState_nil]; exact h2
        · rw [extendState_nil]; exact hslots
    · exact Or.inl hr
  | cons cand rest ih =>
    intro k st hslots r hr
    rw [solveDL_cons] at hr
    split_ifs at hr with h1 h2 h3 h4 h5 hg
    · exact Or.inl hr
    · rcases List.mem_append.mp hr with h | h
      · exact Or.inl h
      · refine Or.inr ⟨[], List.nil_sublist _, by simp, ?_, ?_, ?_⟩
        · rw [extendState_nil]
          simpa using h
        · rw [extendState_nil]; exact h2
        · rw [extendState_nil]; exact hslots
    · exact Or.inl hr
    · exact Or.inl hr
    · exact Or.inl hr
    · -- add branch taken, then skip
      set R1 := (solveDL needed ths maxLevel rest (k - 1) (addState st cand)).results
        with hR1
      have houter := ih k { st with results := R1 } (by simpa using hslots) r hr
      rcases houter with h | ⟨ext, hsub, hlen, hrec, hunsat, hsl⟩
      · -- r came from the add subtree
        have hinner := ih (k - 1) (addState st cand)
          (by simpa [addState] using hg) r (by simpa [hR1] using h)
        rcases hinner with h' | ⟨ext, hsub, hlen, hrec, hunsat, hsl⟩
        · exact Or.inl h'
        · refine Or.inr ⟨cand :: ext, List.Sublist.cons₂ _ hsub, ?_, ?_, ?_, ?_⟩
          · simp only [List.length_cons]
            omega
          · rw [extendState_cons]; exact hrec
          · rw [extendState_cons]; exact hunsat
          · rw [extendState_cons]; exact hsl
      · -- r was recorded in the skip branch
        refine Or.inr ⟨ext, List.Sublist.cons _ hsub, hlen, ?_, ?_, ?_⟩
        · rw [hrec]
          have :ext.foldl addState { st with results := R1 }
              = { ext.foldl addState st with results := R1 } :=
            extendState_set_results st R1 ext
          unfold extendState at this ⊢
          rw [this]
          rfl
        · have : ext.foldl addState { st with results := R1 }
              = { ext.foldl addState st with results := R1 } :=
            extendState_set_results st R1 ext
          unfold extendState at this hunsat ⊢
          rw [this] at hunsat
          exact hunsat
        · have : ext.foldl addState { st with results := R1 }
              = { ext.foldl addState st with results := R1 } :=
            extendState_set_results st R1 ext
          unfold extendState at this hsl ⊢
          rw [this] at hsl
          exact hsl
    · -- add branch not taken (slot guard failed)
      have houter := ih k st hslots r hr
      rcases houter with h | ⟨ext, hsub, hlen, hrec, hunsat, hsl⟩
      · exact Or.inl h
      · exact Or.inr ⟨ext, List.Sublist.cons _ hsub, hlen, hrec, hunsat, hsl⟩

/-- Completeness of `solve_depth_limited`: if some sublist of the remaining
candidates (of length within the remaining depth) extends the current state to
a slot-feasible state with empty unsatisfied mask, the call ends with a
non-empty result list. -/
theorem solveDL_complete (needed : List Int) (ths : List (List Int))
    (maxLevel : Nat) (cands : List Cand) :
    ∀ (k : Nat) (st : SState) (ext : List Cand),
      ext.Sublist cands → ext.length ≤ k →
      (∀ c ∈ cands, 1 ≤ c.slots) →
      (∀ c ∈ cands, ∀ id ∈ c.traitIds, c.mask.testBit (id % 32) = true) →
      getUnsatisfiedMask needed (extendState st ext).counts = 0 →
      (extendState st ext).slots ≤ maxLevel →
      (solveDL needed ths maxLevel cands k st).results ≠ [] := by
  induction cands with
  | nil =>
    intro k st ext hsub hlen hcs hcm hsat hsl
    have hext : ext = [] := List.sublist_nil.mp hsub
    subst hext
    rw [extendState_nil] at hsat
    rw [solveDL_nil]
    split_ifs with hcap
    · intro hc
      rw [hc] at hcap
      simp [MAX_RESULTS] at hcap
    · simp
  | cons cand rest ih =>
    intro k st ext hsub hlen hcs hcm hsat hsl
    have hcs' : ∀ c ∈ rest, 1 ≤ c.slots := fun c hc => hcs c (by simp [hc])
    have hcm' : ∀ c ∈ rest, ∀ id ∈ c.traitIds, c.mask.testBit (id % 32) = true :=
      fun c hc => hcm c (by simp [hc])
    rw [solveDL_cons]
    split_ifs with h1 h2 h3 h4 h5 hg
    · intro hc
      rw [hc] at h1
      simp [MAX_RESULTS] at h1
    · simp
    · -- allowedAdds = 0 : then ext = [] and the state itself is satisfied
      exfalso
      subst h3
      have hext : ext = [] := List.length_eq_zero.mp (Nat.le_zero.mp hlen)
      subst hext
      rw [extendState_nil] at hsat
      exact h2 hsat
    · -- maxLevel ≤ st.slots : contradicts the feasibility of ext
      exfalso
      cases ext with
      | nil =>
        rw [extendState_nil] at hsat
        exact h2 hsat
      | cons e tl =>
        have hes : 1 ≤ e.slots := hcs e (hsub.subset (by simp))
        have hsl' := hsl
        rw [extendState_slots st (e :: tl)] at hsl'
        simp only [List.map_cons, List.sum_cons] at hsl'
        omega
    · -- pruned : contradicts the feasibility of ext
      exfalso
      obtain ⟨b, hub, hsb⟩ := (land_ne_self_iff _ _).mp h5
      obtain ⟨i, hi, ⟨hpos, hlt⟩, hib⟩ := (testBit_unsat _ _ b).mp hub
      have hnotouch : ∀ c ∈ ext, i ∉ c.traitIds := by
        intro c hc hidc
        have hcmem : c ∈ cand :: rest := hsub.subset hc
        have hcb : c.mask.testBit (i % 32) = true := hcm c hcmem i hidc
        have hsfx : (suffixOr (cand :: rest)).testBit b = true :=
          (testBit_suffixOr _ b).mpr ⟨c, hcmem, by rw [hib] at hcb; exact hcb⟩
        rw [hsfx] at hsb
        cases hsb
      have hsame : ∀ (s : SState), (∀ c ∈ ext, i ∉ c.traitIds) →
          (extendState s ext).counts.getD i 0 = s.counts.getD i 0 := by
        clear hsat hsl hsub hlen hnotouch
        induction ext with
        | nil => intro s _; rw [extendState_nil]
        | cons c tl ihe =>
          intro s hnt
          rw [extendState_cons]
          rw [ihe (addState s c) (fun d hd => hnt d (List.mem_cons_of_mem _ hd))]
          exact applyCandCounts_getD_not_mem c s.counts i
            (hnt c (List.mem_cons_self _ _))
      have hbit : (getUnsatisfiedMask needed
          (extendState st ext).counts).testBit b = true := by
        apply (testBit_unsat _ _ b).mpr
        exact ⟨i, hi, ⟨hpos, by rw [hsame st hnotouch]; exact hlt⟩, hib⟩
      exact nat_ne_zero_of_testBit hbit hsat
    · -- add branch explored
      cases hsub with
      | cons₂ _ hsub' =>
        rename_i tl
        have hinner : (solveDL needed ths maxLevel rest (k - 1)
            (addState st cand)).results ≠ [] := by
          apply ih (k - 1) (addState st cand) tl hsub'
          · simp only [List.length_cons] at hlen
            omega
          · exact hcs'
          · exact hcm'
          · rw [← extendState_cons]; exact hsat
          · rw [← extendState_cons]; exact hsl
        apply solveDL_results_ne_nil
        simpa using hinner
      | cons _ hsub' =>
        apply ih k _ ext hsub' hlen hcs' hcm'
        · have hts := extendState_set_results st
            ((solveDL needed ths maxLevel rest (k - 1) (addState st cand)).results)
            ext
          unfold extendState at hts ⊢
          rw [hts]
          exact hsat
        · have hts := extendState_set_results st
            ((solveDL needed ths maxLevel rest (k - 1) (addState st cand)).results)
            ext
          unfold extendState at hts ⊢
          rw [hts]
          exact hsl
    · -- slot guard failed for the head candidate
      cases hsub with
      | cons₂ _ hsub' =>
        rename_i tl
        exfalso
        apply hg
        have hsl' := hsl
        rw [extendState_slots st (cand :: tl)] at hsl'
        simp only [List.map_cons, List.sum_cons] at hsl'
        omega
      | cons _ hsub' =>
        exact ih k st ext hsub' hlen hcs' hcm' hsat hsl

/-- Silence of `solve_depth_limited`: when no sublist of the remaining
candidates within the remaining depth can reach a slot-feasible satisfied
state, the call returns its input state unchanged. -/
theorem solveDL_silent (needed : List Int) (ths : List (List Int))
    (maxLevel : Nat) (cands : List Cand) :
    ∀ (k : Nat) (st : SState), st.slots ≤ maxLevel →
      (∀ ext, ext.Sublist cands → ext.length ≤ k →
        getUnsatisfiedMask needed (extendState st ext).counts = 0 →
        (extendState st ext).slots ≤ maxLevel → False) →
      solveDL needed ths maxLevel cands k st = st := by
  induction cands with
  | nil =>
    intro k st hslots hno
    rw [solveDL_nil]
    split_ifs with h1 h2
    · rfl
    · exact absurd ((by rw [extendState_nil]; exact h2 :
        getUnsatisfiedMask needed (extendState st []).counts = 0))
        (fun hc => hno [] (List.nil_sublist _) (by simp) hc
          (by rw [extendState_nil]; exact hslots))
    · rfl
  | cons cand rest ih =>
    intro k st hslots hno
    rw [solveDL_cons]
    split_ifs with h1 h2 h3 h4 h5 hg
    · rfl
    · exact absurd ((by rw [extendState_nil]; exact h2 :
        getUnsatisfiedMask needed (extendState st []).counts = 0))
        (fun hc => hno [] (List.nil_sublist _) (by simp) hc
          (by rw [extendState_nil]; exact hslots))
    · rfl
    · rfl
    · rfl
    · -- add branch: inner call is silent, then the skip call is silent
      have hinner : solveDL needed ths maxLevel rest (k - 1) (addState st cand)
          = addState st cand := by
        apply ih (k - 1) (addState st cand) (by simpa [addState] using hg)
        intro ext hsub hlen hsat hsl
        apply hno (cand :: ext) (List.Sublist.cons₂ _ hsub)
        · simp only [List.length_cons]
          omega
        · rw [extendState_cons]; exact hsat
        · rw [extendState_cons]; exact hsl
      rw [hinner]
      have hst1 : ({ st with results := (addState st cand).results } : SState)
          = st := rfl
      rw [hst1]
      exact ih k st hslots
        (fun ext hsub hlen hsat hsl =>
          hno ext (List.Sublist.cons _ hsub) hlen hsat hsl)
    · exact ih k st hslots
        (fun ext hsub hlen hsat hsl =>
          hno ext (List.Sublist.cons _ hsub) hlen hsat hsl)

/-- The recorded-results cap: `solve_depth_limited` never grows `results`
beyond `MAX_RESULTS * 2` entries. -/
theorem solveDL_results_le (needed : List Int) (ths : List (List Int))
    (maxLevel : Nat) (cands : List Cand) :
    ∀ (k : Nat) (st : SState),
      st.results.length ≤ MAX_RESULTS * 2 →
      (solveDL needed ths maxLevel cands k st).results.length
        ≤ MAX_RESULTS * 2 := by
  induction cands with
  | nil =>
    intro k st hle
    rw [solveDL_nil]
    split_ifs with h1 h2
    · exact hle
    · simp only [List.length_append, List.length_cons, List.length_nil]
      omega
    · exact hle
  | cons cand rest ih =>
    intro k st hle
    rw [solveDL_cons]
    split_ifs with h1 h2 h3 h4 h5 hg
    · exact hle
    · simp only [List.length_append, List.length_cons, List.length_nil]
      omega
    · exact hle
    · exact hle
    · exact hle
    · apply ih
      have : (addState st cand).results.length ≤ MAX_RESULTS * 2 := hle
      simpa using ih (k - 1) (addState st cand) this
    · exact ih k st hle

/-! ## Sorting lemmas -/

theorem insertByCost_perm (x : Cand) (l : List Cand) :
    (insertByCost x l).Perm (x :: l) := by
  induction l with
  | nil => exact List.Perm.refl _
  | cons y ys ih =>
    rw [insertByCost]
    split_ifs
    · exact ((ih.cons y).trans (List.Perm.swap x y ys))
    · exact List.Perm.refl _

theorem sortByCost_perm (l : List Cand) : (sortByCost l).Perm l := by
  induction l with
  | nil => exact List.Perm.refl _
  | cons x xs ih =>
    rw [sortByCost]
    exact (insertByCost_perm x (sortByCost xs)).trans (ih.cons x)

theorem mem_sortByCost (c : Cand) (l : List Cand) :
    c ∈ sortByCost l ↔ c ∈ l :=
  (sortByCost_perm l).mem_iff

theorem insertResult_perm (x : SearchResult) (l : List SearchResult) :
    (insertResult x l).Perm (x :: l) := by
  induction l with
  | nil => exact List.Perm.refl _
  | cons y ys ih =>
    rw [insertResult]
    split_ifs
    · exact ((ih.cons y).trans (List.Perm.swap x y ys))
    · exact List.Perm.refl _

theorem sortResults_perm (l : List SearchResult) : (sortResults l).Perm l := by
  induction l with
  | nil => exact List.Perm.refl _
  | cons x xs ih =>
    rw [sortResults]
    exact (insertResult_perm x (sortResults xs)).trans (ih.cons x)

theorem insertByCost_head (x : Cand) (l : List Cand)
    (h : ∀ z ∈ l, ¬ z.cost < x.cost) : insertByCost x l = x :: l := by
  cases l with
  | nil => rfl
  | cons y ys =>
    rw [insertByCost, if_neg (h y (List.mem_cons_self _ _))]

theorem insertByCost_pairwise (x : Cand) (l : List Cand)
    (h : l.Pairwise (fun a b => a.cost ≤ b.cost)) :
    (insertByCost x l).Pairwise (fun a b => a.cost ≤ b.cost) := by
  induction l with
  | nil => simp [insertByCost]
  | cons y ys ih =>
    rw [List.pairwise_cons] at h
    rw [insertByCost]
    split_ifs with hyx
    · rw [List.pairwise_cons]
      constructor
      · intro z hz
        rcases List.mem_cons.mp ((insertByCost_perm x ys).mem_iff.mp hz)
          with hzx | hzys
        · subst hzx
          omega
        · exact h.1 z hzys
      · exact ih h.2
    · rw [List.pairwise_cons]
      constructor
      · intro z hz
        rcases List.mem_cons.mp hz with hzy | hzys
        · subst hzy
          omega
        · have := h.1 z hzys
          omega
      · rw [List.pairwise_cons]
        exact h

theorem sortByCost_pairwise (l : List Cand) :
    (sortByCost l).Pairwise (fun a b => a.cost ≤ b.cost) := by
  induction l with
  | nil => simp [sortByCost]
  | cons x xs ih =>
    rw [sortByCost]
    exact insertByCost_pairwise x _ ih

theorem filter_insertByCost (p : Cand → Bool) (x : Cand) (l : List Cand)
    (hs : l.Pairwise (fun a b => a.cost ≤ b.cost)) :
    (insertByCost x l).filter p
      = if p x then insertByCost x (l.filter p) else l.filter p := by
  induction l with
  | nil =>
    rw [insertByCost]
    by_cases hp : p x <;> simp [hp, insertByCost]
  | cons y ys ih =>
    rw [List.pairwise_cons] at hs
    rw [insertByCost]
    split_ifs with hyx hp hp2
    · -- y stays in front of x
      by_cases hpy : p y
      · rw [List.filter_cons_of_pos hpy, ih hs.2, if_pos hp,
          List.filter_cons_of_pos hpy, insertByCost, if_pos hyx]
      · rw [List.filter_cons_of_neg hpy, ih hs.2, if_pos hp,
          List.filter_cons_of_neg hpy]
    · by_cases hpy : p y
      · rw [List.filter_cons_of_pos hpy, ih hs.2, if_neg hp,
          List.filter_cons_of_pos hpy]
      · rw [List.filter_cons_of_neg hpy, ih hs.2, if_neg hp,
          List.filter_cons_of_neg hpy]
    · -- x goes in front of y :: ys
      rw [List.filter_cons_of_pos hp2]
      rw [insertByCost_head]
      intro z hz
      have hzmem : z ∈ y :: ys := List.mem_of_mem_filter hz
      rcases List.mem_cons.mp hzmem with hzy | hzys
      · subst hzy
        exact hyx
      · have := hs.1 z hzys
        omega
    · rw [List.filter_cons_of_neg hp2]

theorem filter_sortByCost (p : Cand → Bool) (l : List Cand) :
    (sortByCost l).filter p = sortByCost (l.filter p) := by
  induction l with
  | nil => rfl
  | cons x xs ih =>
    rw [sortByCost, filter_insertByCost p x _ (sortByCost_pairwise xs), ih]
    by_cases hp : p x
    · rw [if_pos hp, List.filter_cons_of_pos hp, sortByCost]
    · rw [if_neg hp, List.filter_cons_of_neg hp]

/-! ## Candidate-list well-formedness -/

theorem champSlots_pos (c : Champ) : 1 ≤ champSlots c := by
  unfold champSlots
  rcases c.slots with _ | _ | n <;> simp

theorem mkCand_mask_testBit (keys : List String) (i : Nat) (c : Champ)
    (id : Nat) (hid : id ∈ (mkCand keys i c).traitIds) :
    (mkCand keys i c).mask.testBit (id % 32) = true := by
  have hid' : id ∈ champTraitIds keys c := hid
  exact (testBit_champMask keys c (id % 32)).mpr ⟨id, hid', rfl⟩

theorem mem_championData (keys : List String) (champs : List Champ) (c : Cand)
    (h : c ∈ championData keys champs) :
    ∃ i ch, ch ∈ champs ∧ c = mkCand keys i ch := by
  unfold championData at h
  obtain ⟨p, hp, he⟩ := List.mem_map.mp h
  refine ⟨p.1, p.2, ?_, he.symm⟩
  have := List.mem_enum_iff_getElem?.mp hp
  exact List.getElem?_mem this

theorem mem_candRaw (keys : List String) (champs lockedL bannedL : List Champ)
    (m : Nat) (hr : Bool) (c : Cand)
    (h : c ∈ candRaw keys champs lockedL bannedL m hr) :
    c ∈ championData keys champs ∧ c.original ∉ bannedL
      ∧ c.original ∉ lockedL ∧ (hr = true → c.mask &&& m ≠ 0) := by
  unfold candRaw at h
  have hmem := List.mem_of_mem_filter h
  have hpred := List.of_mem_filter h
  refine ⟨hmem, ?_, ?_, ?_⟩
  · intro hb
    rw [if_pos ((contains_iff_mem bannedL c.original).mpr hb)] at hpred
    cases hpred
  · intro hl
    by_cases hb : bannedL.contains c.original = true
    · rw [if_pos hb] at hpred
      cases hpred
    · rw [if_neg hb, if_pos ((contains_iff_mem lockedL c.original).mpr hl)]
        at hpred
      cases hpred
  · intro hhr hmask
    by_cases hb : bannedL.contains c.original = true
    · rw [if_pos hb] at hpred
      cases hpred
    · by_cases hl : lockedL.contains c.original = true
      · rw [if_neg hb, if_pos hl] at hpred
        cases hpred
      · rw [if_neg hb, if_neg hl, if_pos hhr] at hpred
        rw [hmask] at hpred
        simp at hpred

theorem mem_candListOf (keys : List String) (champs lockedL bannedL : List Champ)
    (m : Nat) (hr : Bool) (c : Cand) :
    c ∈ candListOf keys champs lockedL bannedL m hr
      ↔ c ∈ candRaw keys champs lockedL bannedL m hr :=
  mem_sortByCost c _

theorem candListOf_wf_mask (keys : List String)
    (champs lockedL bannedL : List Champ) (m : Nat) (hr : Bool) :
    ∀ c ∈ candListOf keys champs lockedL bannedL m hr,
      ∀ id ∈ c.traitIds, c.mask.testBit (id % 32) = true := by
  intro c hc id hid
  have := (mem_candListOf keys champs lockedL bannedL m hr c).mp hc
  obtain ⟨i, ch, _, he⟩ := mem_championData keys champs c
    (mem_candRaw keys champs lockedL bannedL m hr c this).1
  subst he
  exact mkCand_mask_testBit keys i ch id hid

theorem candListOf_wf_slots (keys : List String)
    (champs lockedL bannedL : List Champ) (m : Nat) (hr : Bool) :
    ∀ c ∈ candListOf keys champs lockedL bannedL m hr, 1 ≤ c.slots := by
  intro c hc
  have := (mem_candListOf keys champs lockedL bannedL m hr c).mp hc
  obtain ⟨i, ch, _, he⟩ := mem_championData keys champs c
    (mem_candRaw keys champs lockedL bannedL m hr c this).1
  subst he
  exact champSlots_pos ch

theorem candListOf_wf_ids (keys : List String)
    (champs lockedL bannedL : List Champ) (m : Nat) (hr : Bool) :
    ∀ c ∈ candListOf keys champs lockedL bannedL m hr,
      ∀ id ∈ c.traitIds, id < keys.length := by
  intro c hc id hid
  have := (mem_candListOf keys champs lockedL bannedL m hr c).mp hc
  obtain ⟨i, ch, _, he⟩ := mem_championData keys champs c
    (mem_candRaw keys champs lockedL bannedL m hr c this).1
  subst he
  exact champTraitIds_lt keys ch id hid

/-! ## The pruning check is semantically transparent -/

theorem solveDLNP_nil (needed : List Int) (ths : List (List Int))
    (maxLevel : Nat) (k : Nat) (st : SState) :
    solveDLNP needed ths maxLevel [] k st
      = if MAX_RESULTS * 2 ≤ st.results.length then st
        else if getUnsatisfiedMask needed st.counts = 0 then
          { st with results := st.results ++ [recordResult ths st] }
        else st := by
  rfl

theorem solveDLNP_cons (needed : List Int) (ths : List (List Int))
    (maxLevel : Nat) (cand : Cand) (rest : List Cand) (allowedAdds : Nat)
    (st : SState) :
    solveDLNP needed ths maxLevel (cand :: rest) allowedAdds st
      = if MAX_RESULTS * 2 ≤ st.results.length then st
        else if getUnsatisfiedMask needed st.counts = 0 then
          { st with results := st.results ++ [recordResult ths st] }
        else if allowedAdds = 0 then st
        else if maxLevel ≤ st.slots then st
        else
          solveDLNP needed ths maxLevel rest allowedAdds
            (if st.slots + cand.slots ≤ maxLevel then
              { st with results :=
                  (solveDLNP needed ths maxLevel rest (allowedAdds - 1)
                    (addState st cand)).results }
            else st) := by
  rfl

/-- Without the pruning check, a subtree in which some positive-target trait
can never gain a contribution records nothing and leaves the state unchanged. -/
theorem solveDLNP_blocked (needed : List Int) (ths : List (List Int))
    (maxLevel : Nat) (cands : List Cand) :
    ∀ (k : Nat) (st : SState) (i : Nat),
      i < needed.length → 0 < needed.getD i 0
      → st.counts.getD i 0 < needed.getD i 0
      → (∀ c ∈ cands, i ∉ c.traitIds)
      → solveDLNP needed ths maxLevel cands k st = st := by
  induction cands with
  | nil =>
    intro k st i hi hpos hlt hnt
    rw [solveDLNP_nil]
    split_ifs with h1 h2
    · rfl
    · exfalso
      have hbit : (getUnsatisfiedMask needed st.counts).testBit (i % 32)
          = true :=
        (testBit_unsat _ _ _).mpr ⟨i, hi, ⟨hpos, hlt⟩, rfl⟩
      exact nat_ne_zero_of_testBit hbit h2
    · rfl
  | cons cand rest ih =>
    intro k st i hi hpos hlt hnt
    rw [solveDLNP_cons]
    split_ifs with h1 h2 h3 h4 hg
    · rfl
    · exfalso
      have hbit : (getUnsatisfiedMask needed st.counts).testBit (i % 32)
          = true :=
        (testBit_unsat _ _ _).mpr ⟨i, hi, ⟨hpos, hlt⟩, rfl⟩
      exact nat_ne_zero_of_testBit hbit h2
    · rfl
    · rfl
    · -- add branch: the added unit does not touch trait i either
      have hinner : solveDLNP needed ths maxLevel rest (k - 1)
          (addState st cand) = addState st cand := by
        apply ih (k - 1) (addState st cand) i hi hpos
        · have : (addState st cand).counts.getD i 0 = st.counts.getD i 0 :=
            applyCandCounts_getD_not_mem cand st.counts i
              (hnt cand (List.mem_cons_self _ _))
          rw [this]
          exact hlt
        · exact fun c hc => hnt c (List.mem_cons_of_mem _ hc)
      rw [hinner]
      have hst1 : ({ st with results := (addState st cand).results } : SState)
          = st := rfl
      rw [hst1]
      exact ih k st i hi hpos hlt (fun c hc => hnt c (List.mem_cons_of_mem _ hc))
    · exact ih k st i hi hpos hlt
        (fun c hc => hnt c (List.mem_cons_of_mem _ hc))

/-- The suffix-mask pruning check never changes the outcome: with or without
it, `solve_depth_limited` computes the same state. -/
theorem solveDL_eq_solveDLNP (needed : List Int) (ths : List (List Int))
    (maxLevel : Nat) (cands : List Cand)
    (hcm : ∀ c ∈ cands, ∀ id ∈ c.traitIds, c.mask.testBit (id % 32) = true) :
    ∀ (k : Nat) (st : SState),
      solveDL needed ths maxLevel cands k st
        = solveDLNP needed ths maxLevel cands k st := by
  induction cands with
  | nil => intro k st; rw [solveDL_nil, solveDLNP_nil]
  | cons cand rest ih =>
    intro k st
    have hcm' : ∀ c ∈ rest, ∀ id ∈ c.traitIds, c.mask.testBit (id % 32) = true :=
      fun c hc => hcm c (List.mem_cons_of_mem _ hc)
    rw [solveDL_cons, solveDLNP_cons]
    by_cases h1 : MAX_RESULTS * 2 ≤ st.results.length
    · rw [if_pos h1, if_pos h1]
    rw [if_neg h1, if_neg h1]
    by_cases h2 : getUnsatisfiedMask needed st.counts = 0
    · rw [if_pos h2, if_pos h2]
    rw [if_neg h2, if_neg h2]
    by_cases h3 : k = 0
    · rw [if_pos h3, if_pos h3]
    rw [if_neg h3, if_neg h3]
    by_cases h4 : maxLevel ≤ st.slots
    · rw [if_pos h4, if_pos h4]
    rw [if_neg h4, if_neg h4]
    by_cases h5 : getUnsatisfiedMask needed st.counts &&& suffixOr (cand :: rest)
        ≠ getUnsatisfiedMask needed st.counts
    · -- the pruned subtree is silent even without the check
      rw [if_pos h5]
      obtain ⟨b, hub, hsb⟩ := (land_ne_self_iff _ _).mp h5
      obtain ⟨i, hi, ⟨hpos, hlt⟩, hib⟩ := (testBit_unsat _ _ b).mp hub
      have hnt : ∀ c ∈ cand :: rest, i ∉ c.traitIds := by
        intro c hc hidc
        have hcb : c.mask.testBit (i % 32) = true := hcm c hc i hidc
        have hsfx : (suffixOr (cand :: rest)).testBit b = true :=
          (testBit_suffixOr _ b).mpr ⟨c, hc, by rw [hib] at hcb; exact hcb⟩
        rw [hsfx] at hsb
        cases hsb
      have hblocked := solveDLNP_blocked needed ths maxLevel (cand :: rest)
        k st i hi hpos hlt hnt
      rw [solveDLNP_cons] at hblocked
      rw [if_neg h1, if_neg h2, if_neg h3, if_neg h4] at hblocked
      exact hblocked.symm
    · rw [if_neg h5]
      by_cases hg : st.slots + cand.slots ≤ maxLevel
      · rw [if_pos hg, if_pos hg, ih hcm' (k - 1) (addState st cand), ih hcm' k]
      · rw [if_neg hg, if_neg hg, ih hcm' k st]

/-! ## The iterative-deepening loop -/

theorem iddfsAux_zero (needed : List Int) (ths : List (List Int))
    (maxLevel : Nat) (cands : List Cand) (d : Nat) (st : SState) :
    iddfsAux needed ths maxLevel cands 0 d st = st := rfl

theorem iddfsAux_succ (needed : List Int) (ths : List (List Int))
    (maxLevel : Nat) (cands : List Cand) (fuel d : Nat) (st : SState) :
    iddfsAux needed ths maxLevel cands (fuel + 1) d st
      = if 0 < st.results.length then st
        else iddfsAux needed ths maxLevel cands fuel (d + 1)
          (solveDL needed ths maxLevel cands d st) := rfl

theorem iddfsAux_of_nonempty (needed : List Int) (ths : List (List Int))
    (maxLevel : Nat) (cands : List Cand) (fuel d : Nat) (st : SState)
    (h : st.results ≠ []) :
    iddfsAux needed ths maxLevel cands fuel d st = st := by
  cases fuel with
  | zero => rfl
  | succ fuel =>
    rw [iddfsAux_succ, if_pos (by cases hres : st.results with
      | nil => exact absurd hres h
      | cons a tl => simp)]

/-- The iterative-deepening loop either finds nothing at any depth and leaves
the state unchanged, or returns the outcome of the first depth that records
at least one result, all shallower depths having recorded none. -/
theorem iddfsAux_char (needed : List Int) (ths : List (List Int))
    (maxLevel : Nat) (cands : List Cand) :
    ∀ (fuel d : Nat) (st : SState), st.results = [] →
      (iddfsAux needed ths maxLevel cands fuel d st = st
        ∧ ∀ e, d ≤ e → e < d + fuel →
            (solveDL needed ths maxLevel cands e st).results = [])
      ∨ ∃ d', d ≤ d' ∧ d' < d + fuel
          ∧ (∀ e, d ≤ e → e < d' →
              (solveDL needed ths maxLevel cands e st).results = [])
          ∧ iddfsAux needed ths maxLevel cands fuel d st
              = solveDL needed ths maxLevel cands d' st
          ∧ (solveDL needed ths maxLevel cands d' st).results ≠ [] := by
  intro fuel
  induction fuel with
  | zero =>
    intro d st hst
    left
    refine ⟨rfl, ?_⟩
    intro e he1 he2
    omega
  | succ fuel ih =>
    intro d st hst
    rw [iddfsAux_succ, if_neg (by rw [hst]; simp)]
    by_cases hres : (solveDL needed ths maxLevel cands d st).results = []
    · -- nothing at depth d : the state is unchanged and we continue
      have heq : solveDL needed ths maxLevel cands d st = st := by
        obtain ⟨new, e⟩ := solveDL_shape needed ths maxLevel cands d st
        have hnew : new = [] := by
          have h2 : (solveDL needed ths maxLevel cands d st).results
              = st.results ++ new := by
            rw [e]
          rw [hres, hst] at h2
          simpa using h2.symm
        rw [e, hnew]
        simp only [List.append_nil]
      rw [heq]
      rcases ih (d + 1) st hst with ⟨heq2, hall⟩ | ⟨d', hd1, hd2, hall, heq2, hne⟩
      · left
        refine ⟨heq2, ?_⟩
        intro e he1 he2
        by_cases hed : e = d
        · subst hed; exact hres
        · exact hall e (by omega) (by omega)
      · right
        refine ⟨d', by omega, by omega, ?_, heq2, hne⟩
        intro e he1 he2
        by_cases hed : e = d
        · subst hed; exact hres
        · exact hall e (by omega) (by omega)
    · -- depth d recorded something : the loop stops there
      right
      refine ⟨d, Nat.le_refl _, by omega, ?_, ?_, hres⟩
      · intro e he1 he2
        omega
      · exact iddfsAux_of_nonempty needed ths maxLevel cands fuel (d + 1)
          (solveDL needed ths maxLevel cands d st) hres

/-! ## Locked-unit seeding invariants -/

/-- The invariant maintained by the seeding fold: the running aggregates match
the team, no results yet, the team has no duplicates, and the `seen` set holds
exactly the team members. -/
def SeedInv (keys : List String) (acc : List Champ × SState) : Prop :=
  acc.2.counts = teamCountsVec keys acc.2.team
  ∧ acc.2.slots = teamSlots acc.2.team
  ∧ acc.2.cost = teamCost acc.2.team
  ∧ acc.2.results = []
  ∧ acc.2.team.Nodup
  ∧ (∀ x, x ∈ acc.2.team ↔ x ∈ acc.1)

theorem seedFold_inv (keys : List String) (l : List Champ) :
    ∀ (acc : List Champ × SState), SeedInv keys acc →
      SeedInv keys (l.foldl (seedStep keys) acc)
      ∧ (∀ x, x ∈ (l.foldl (seedStep keys) acc).2.team
          ↔ x ∈ acc.2.team ∨ x ∈ l) := by
  induction l with
  | nil =>
    intro acc hacc
    exact ⟨hacc, fun x => by simp⟩
  | cons c tl ih =>
    intro acc hacc
    rw [List.foldl_cons]
    by_cases hc : acc.1.contains c
    · have hstep : seedStep keys acc c = acc := by
        unfold seedStep
        rw [if_pos hc]
      rw [hstep]
      obtain ⟨h1, h2⟩ := ih acc hacc
      refine ⟨h1, fun x => ?_⟩
      rw [h2 x]
      constructor
      · rintro (hx | hx)
        · exact Or.inl hx
        · exact Or.inr (List.mem_cons_of_mem _ hx)
      · rintro (hx | hx)
        · exact Or.inl hx
        · rcases List.mem_cons.mp hx with rfl | hx'
          · exact Or.inl ((hacc.2.2.2.2.2 x).mpr
              ((contains_iff_mem _ _).mp hc))
          · exact Or.inr hx'
    · have hstep : seedStep keys acc c
          = (c :: acc.1,
             { team := acc.2.team ++ [c]
               counts := applyChampCounts keys c acc.2.counts
               cost := acc.2.cost + c.cost
               slots := acc.2.slots + champSlots c
               results := acc.2.results }) := by
        unfold seedStep
        rw [if_neg hc]
      rw [hstep]
      have hcnotin : c ∉ acc.2.team := fun hmem =>
        hc ((contains_iff_mem _ _).mpr ((hacc.2.2.2.2.2 c).mp hmem))
      have hinv' : SeedInv keys (c :: acc.1,
          { team := acc.2.team ++ [c]
            counts := applyChampCounts keys c acc.2.counts
            cost := acc.2.cost + c.cost
            slots := acc.2.slots + champSlots c
            results := acc.2.results }) := by
        obtain ⟨e1, e2, e3, e4, e5, e6⟩ := hacc
        refine ⟨?_, ?_, ?_, e4, ?_, ?_⟩
        · show applyChampCounts keys c acc.2.counts
            = teamCountsVec keys (acc.2.team ++ [c])
          rw [teamCountsVec_concat, e1]
        · show acc.2.slots + champSlots c = teamSlots (acc.2.team ++ [c])
          rw [teamSlots_append, e2]
          simp [teamSlots]
        · show acc.2.cost + c.cost = teamCost (acc.2.team ++ [c])
          rw [teamCost_append, e3]
          simp [teamCost]
        · show (acc.2.team ++ [c]).Nodup
          rw [List.nodup_append]
          exact ⟨e5, List.nodup_singleton _,
            fun a ha hb => hcnotin (by rwa [List.mem_singleton.mp hb] at ha)⟩
        · intro x
          show x ∈ acc.2.team ++ [c] ↔ x ∈ c :: acc.1
          rw [List.mem_append, List.mem_singleton, List.mem_cons]
          rw [e6 x]
          tauto
      obtain ⟨h1, h2⟩ := ih _ hinv'
      refine ⟨h1, fun x => ?_⟩
      rw [h2 x]
      show x ∈ acc.2.team ++ [c] ∨ x ∈ tl ↔ x ∈ acc.2.team ∨ x ∈ c :: tl
      rw [List.mem_append, List.mem_singleton, List.mem_cons]
      tauto

theorem initState_inv (keys : List String) (lockedL : List Champ) :
    (initState keys lockedL).counts
        = teamCountsVec keys (initState keys lockedL).team
      ∧ (initState keys lockedL).slots = teamSlots (initState keys lockedL).team
      ∧ (initState keys lockedL).cost = teamCost (initState keys lockedL).team
      ∧ (initState keys lockedL).results = []
      ∧ (initState keys lockedL).team.Nodup
      ∧ (∀ x, x ∈ (initState keys lockedL).team ↔ x ∈ lockedL) := by
  have hbase : SeedInv keys (seedAcc keys []) := by
    refine ⟨?_, rfl, rfl, rfl, List.nodup_nil, fun x => by simp [seedAcc]⟩
    show List.replicate keys.length (0 : Int) = teamCountsVec keys []
    unfold teamCountsVec
    rfl
  have hfold : initState keys lockedL
      = (lockedL.foldl (seedStep keys) (seedAcc keys [])).2 := rfl
  obtain ⟨h1, h2⟩ := seedFold_inv keys lockedL _ hbase
  obtain ⟨e1, e2, e3, e4, e5, e6⟩ := h1
  rw [hfold]
  refine ⟨e1, e2, e3, e4, e5, fun x => ?_⟩
  rw [h2 x]
  constructor
  · rintro (hx | hx)
    · simp [seedAcc] at hx
    · exact hx
  · exact fun hx => Or.inr hx

/-! ## Characterizing the raw result list of a `search` call -/

theorem searchRaw_eq (tr : List (String × List Int)) (maxLevel : Nat)
    (reqs : List Req) (lockedL bannedL champions : List Champ) :
    searchRaw tr maxLevel reqs lockedL bannedL champions
      = if maxLevel < (st0Of tr lockedL).slots then []
        else (iddfsAux (neededOf tr reqs) (buildThresholds tr) maxLevel
            (candsOf tr reqs lockedL bannedL champions)
            (maxLevel - (st0Of tr lockedL).slots + 1) 0
            (st0Of tr lockedL)).results := rfl

theorem mem_searchRaw_of_mem_search (tr : List (String × List Int))
    (maxLevel : Nat) (reqs : List Req) (lockedL bannedL champions : List Champ)
    (r : SearchResult)
    (hr : r ∈ search tr maxLevel reqs lockedL bannedL champions) :
    r ∈ searchRaw tr maxLevel reqs lockedL bannedL champions := by
  unfold search at hr
  exact (sortResults_perm _).mem_iff.mp ((List.take_sublist _ _).subset hr)

theorem st0_results_nil (tr : List (String × List Int)) (lockedL : List Champ) :
    (st0Of tr lockedL).results = [] :=
  (initState_inv (tkeys tr) lockedL).2.2.2.1

/-- Every raw result of a feasible call is the record of the seeded state
extended by a sublist of the candidate list which satisfies all requirements
within the slot budget, and that sublist has minimum length among all such
sublists. -/
theorem searchRaw_char (tr : List (String × List Int)) (maxLevel : Nat)
    (reqs : List Req) (lockedL bannedL champions : List Champ)
    (r : SearchResult)
    (hr : r ∈ searchRaw tr maxLevel reqs lockedL bannedL champions) :
    (st0Of tr lockedL).slots ≤ maxLevel
    ∧ ∃ ext, ext.Sublist (candsOf tr reqs lockedL bannedL champions)
      ∧ r = recordResult (buildThresholds tr)
          (extendState (st0Of tr lockedL) ext)
      ∧ getUnsatisfiedMask (neededOf tr reqs)
          (extendState (st0Of tr lockedL) ext).counts = 0
      ∧ (extendState (st0Of tr lockedL) ext).slots ≤ maxLevel
      ∧ ∀ ext2, ext2.Sublist (candsOf tr reqs lockedL bannedL champions) →
          getUnsatisfiedMask (neededOf tr reqs)
            (extendState (st0Of tr lockedL) ext2).counts = 0 →
          (extendState (st0Of tr lockedL) ext2).slots ≤ maxLevel →
          ext.length ≤ ext2.length := by
  rw [searchRaw_eq] at hr
  by_cases hguard : maxLevel < (st0Of tr lockedL).slots
  · rw [if_pos hguard] at hr
    cases hr
  · rw [if_neg hguard] at hr
    have hslots : (st0Of tr lockedL).slots ≤ maxLevel := Nat.le_of_not_lt hguard
    refine ⟨hslots, ?_⟩
    have hcs : ∀ c ∈ candsOf tr reqs lockedL bannedL champions, 1 ≤ c.slots :=
      candListOf_wf_slots (tkeys tr) champions lockedL bannedL _ _
    have hcm : ∀ c ∈ candsOf tr reqs lockedL bannedL champions,
        ∀ id ∈ c.traitIds, c.mask.testBit (id % 32) = true :=
      candListOf_wf_mask (tkeys tr) champions lockedL bannedL _ _
    rcases iddfsAux_char (neededOf tr reqs) (buildThresholds tr) maxLevel
        (candsOf tr reqs lockedL bannedL champions)
        (maxLevel - (st0Of tr lockedL).slots + 1) 0 (st0Of tr lockedL)
        (st0_results_nil tr lockedL)
      with ⟨heq, _⟩ | ⟨d', _, _, hsilent, heq, _⟩
    · rw [heq, st0_results_nil] at hr
      cases hr
    · rw [heq] at hr
      rcases solveDL_sound (neededOf tr reqs) (buildThresholds tr) maxLevel
          (candsOf tr reqs lockedL bannedL champions) d' (st0Of tr lockedL)
          hslots r hr
        with hmem | ⟨ext, hsub, hlen, hrec, hunsat, hsl⟩
      · rw [st0_results_nil] at hmem
        cases hmem
      · refine ⟨ext, hsub, hrec, hunsat, hsl, ?_⟩
        intro ext2 hsub2 hunsat2 hsl2
        by_contra hcontra
        push_neg at hcontra
        have hlt : ext2.length < d' := by omega
        have hcomplete := solveDL_complete (neededOf tr reqs)
          (buildThresholds tr) maxLevel
          (candsOf tr reqs lockedL bannedL champions)
          ext2.length (st0Of tr lockedL) ext2 hsub2 (Nat.le_refl _)
          hcs hcm hunsat2 hsl2
        exact hcomplete (hsilent ext2.length (Nat.zero_le _) (by omega))

/-! ## Projections of candidates back to champions -/

theorem championData_map_original (keys : List String) (champs : List Champ) :
    (championData keys champs).map (fun c => c.original) = champs := by
  unfold championData
  rw [List.map_map]
  have hcomp : ((fun (c : Cand) => c.original)
      ∘ fun (p : Nat × Champ) => mkCand keys p.1 p.2) = Prod.snd := rfl
  rw [hcomp, List.enum_map_snd]

theorem candsOf_mem_props (tr : List (String × List Int)) (reqs : List Req)
    (lockedL bannedL champions : List Champ) (c : Cand)
    (h : c ∈ candsOf tr reqs lockedL bannedL champions) :
    c.original ∉ bannedL ∧ c.original ∉ lockedL
      ∧ c.slots = champSlots c.original
      ∧ c.cost = c.original.cost
      ∧ c.original ∈ champions := by
  have h1 := (mem_candListOf (tkeys tr) champions lockedL bannedL _ _ c).mp h
  obtain ⟨hcd, hban, hlock, _⟩ :=
    mem_candRaw (tkeys tr) champions lockedL bannedL _ _ c h1
  obtain ⟨i, ch, hch, he⟩ := mem_championData (tkeys tr) champions c hcd
  subst he
  exact ⟨hban, hlock, rfl, rfl, hch⟩

theorem candsOf_map_original_nodup (tr : List (String × List Int))
    (reqs : List Req) (lockedL bannedL champions : List Champ)
    (h : champions.Nodup) :
    ((candsOf tr reqs lockedL bannedL champions).map
      (fun c => c.original)).Nodup := by
  have h1 : ((championData (tkeys tr) champions).map
      (fun c => c.original)).Nodup := by
    rw [championData_map_original]
    exact h
  have h2 : ((candRaw (tkeys tr) champions lockedL bannedL
      (nmaskOf tr reqs) (hasReqOf tr reqs)).map (fun c => c.original)).Nodup :=
    ((List.filter_sublist _).map _).nodup h1
  exact ((sortByCost_perm _).map _).nodup_iff.mpr h2

/-! ## Bridging the extended state to team-level aggregates -/

theorem st0_counts_eq (tr : List (String × List Int)) (lockedL : List Champ) :
    (st0Of tr lockedL).counts
      = teamCountsVec (tkeys tr) (st0Of tr lockedL).team :=
  (initState_inv (tkeys tr) lockedL).1

theorem st0_slots_eq (tr : List (String × List Int)) (lockedL : List Champ) :
    (st0Of tr lockedL).slots = teamSlots (st0Of tr lockedL).team :=
  (initState_inv (tkeys tr) lockedL).2.1

theorem st0_cost_eq (tr : List (String × List Int)) (lockedL : List Champ) :
    (st0Of tr lockedL).cost = teamCost (st0Of tr lockedL).team :=
  (initState_inv (tkeys tr) lockedL).2.2.1

theorem st0_team_nodup (tr : List (String × List Int)) (lockedL : List Champ) :
    (st0Of tr lockedL).team.Nodup :=
  (initState_inv (tkeys tr) lockedL).2.2.2.2.1

theorem st0_team_mem (tr : List (String × List Int)) (lockedL : List Champ) :
    ∀ x, x ∈ (st0Of tr lockedL).team ↔ x ∈ lockedL :=
  (initState_inv (tkeys tr) lockedL).2.2.2.2.2

theorem extendState_team_slots (tr : List (String × List Int)) (reqs : List Req)
    (lockedL bannedL champions : List Champ) (ext : List Cand)
    (hsub : ext.Sublist (candsOf tr reqs lockedL bannedL champions)) :
    (extendState (st0Of tr lockedL) ext).slots
      = teamSlots ((extendState (st0Of tr lockedL) ext).team) := by
  rw [extendState_slots, extendState_team, teamSlots_append, st0_slots_eq]
  congr 1
  unfold teamSlots
  rw [List.map_map]
  apply congrArg
  apply List.map_congr_left
  intro c hc
  simp only [Function.comp_apply]
  exact (candsOf_mem_props tr reqs lockedL bannedL champions c
    (hsub.subset hc)).2.2.1

theorem extendState_team_cost (tr : List (String × List Int)) (reqs : List Req)
    (lockedL bannedL champions : List Champ) (ext : List Cand)
    (hsub : ext.Sublist (candsOf tr reqs lockedL bannedL champions)) :
    (extendState (st0Of tr lockedL) ext).cost
      = teamCost ((extendState (st0Of tr lockedL) ext).team) := by
  rw [extendState_cost, extendState_team, teamCost_append, st0_cost_eq]
  congr 1
  unfold teamCost
  rw [List.map_map]
  apply congrArg
  apply List.map_congr_left
  intro c hc
  simp only [Function.comp_apply]
  exact (candsOf_mem_props tr reqs lockedL bannedL champions c
    (hsub.subset hc)).2.2.2.1

theorem calcScore_congr (c1 c2 : List Int) (ths : List (List Int))
    (h : ∀ i, c1.getD i 0 = c2.getD i 0) :
    calcScoreOptimized c1 ths = calcScoreOptimized c2 ths := by
  unfold calcScoreOptimized
  apply foldl_congr_mem
  intro b i _
  rw [h i]

/-! ## Claim theorems -/

/-- C9: if the slot total of the deduplicated locked units exceeds the slot
budget, `search` returns the empty list (a valid infeasible outcome). -/
theorem c9_locked_overflow_empty (traitRules : List (String × List Int))
    (maxLevel : Nat) (reqs : List Req)
    (lockedL bannedL champions : List Champ)
    (h : maxLevel < teamSlots ((st0Of traitRules lockedL).team)) :
    search traitRules maxLevel reqs lockedL bannedL champions = [] := by
  unfold search
  have hraw : searchRaw traitRules maxLevel reqs lockedL bannedL champions
      = [] := by
    rw [searchRaw_eq, if_pos (by rw [st0_slots_eq]; exact h)]
  rw [hraw]
  rfl

/-- C9 witness: one locked one-slot unit with budget 0 yields the empty list. -/
theorem c9_locked_overflow_empty_witness :
    0 < teamSlots ((st0Of rulesX [champU "a"]).team)
    ∧ search rulesX 0 [] [champU "a"] [] [champU "b"] = [] :=
  ⟨by decide, c9_locked_overflow_empty rulesX 0 [] [champU "a"] [] [champU "b"]
    (by decide)⟩

/-- C3: building the index from a 33-trait catalog raises no error; the mask
of a unit contributing only to trait id 32 is `2 ^ (32 % 32) = 1`, silently
colliding with the mask of a unit contributing to trait id 0.  The claim
(and the spec) require an explicit construction-time failure instead. -/
theorem c3_mask_overflow_silent_wrap :
    traitToId (tkeys rules33) "t32" = some 32
    ∧ champMask (tkeys rules33) (champT "t32") = 1
    ∧ champMask (tkeys rules33) (champT "t0") = 1
    ∧ (mkCand (tkeys rules33) 32 (champT "t32")).mask
        = (mkCand (tkeys rules33) 0 (champT "t0")).mask := by
  refine ⟨by decide, by decide, by decide, by decide⟩

/-- C8: a unit present in both the locked and the banned set is included in
every returned team; locked status overrides banned status. -/
theorem c8_locked_overrides_banned (traitRules : List (String × List Int))
    (maxLevel : Nat) (reqs : List Req)
    (lockedL bannedL champions : List Champ) (c : Champ)
    (hc1 : c ∈ lockedL) (_hc2 : c ∈ bannedL) (r : SearchResult)
    (hr : r ∈ search traitRules maxLevel reqs lockedL bannedL champions) :
    c ∈ r.team := by
  have hraw := mem_searchRaw_of_mem_search traitRules maxLevel reqs lockedL
    bannedL champions r hr
  obtain ⟨hslots, ext, hsub, hrec, _, _, _⟩ :=
    searchRaw_char traitRules maxLevel reqs lockedL bannedL champions r hraw
  have hteam : r.team = (extendState (st0Of traitRules lockedL) ext).team := by
    rw [hrec]
    rfl
  rw [hteam, extendState_team]
  exact List.mem_append_left _ ((st0_team_mem traitRules lockedL c).mpr hc1)

/-- C8 witness. -/
theorem c8_locked_overrides_banned_witness :
    champU "a" ∈ [champU "a"] ∧ champU "a" ∈ [champU "a"]
    ∧ ∀ r ∈ search rulesX 8 [] [champU "a"] [champU "a"] [champU "a", champU "b"],
        champU "a" ∈ r.team := by
  refine ⟨by decide, by decide, ?_⟩
  intro r hr
  exact c8_locked_overrides_banned rulesX 8 [] [champU "a"] [champU "a"]
    [champU "a", champU "b"] (champU "a") (by decide) (by decide) r hr

/-- C6: the recorded synergy score diverges from the claimed tiered score of
the team's aggregate count vector: `currentCounts` is an `Int8Array`, so a
locked unit overriding its trait count to 130 is seeded as
`ToInt8(130) = -126`, the trait is skipped as non-positive and the recorded
score is 0, while the tiered score of the true aggregate (130 meets the
threshold 2) is 1. -/
theorem c6_int8_score_wrap :
    ∃ r ∈ search rulesX 4 [] [champO] [] [champO],
      r.score ≠ calcScoreOptimized
        ((List.range (tkeys rulesX).length).map
          (teamCountAt (tkeys rulesX) r.team))
        (buildThresholds rulesX) := by
  decide

/-- C1: the Int8Array `neededCounts` silently wraps a well-formed positive
target: at target 200 the stored value is `ToInt8(200) = -56`, the
requirement is treated as absent, and `search` returns the empty team whose
aggregate 0 falls short of the positive target — the program violates the
claimed invariant for an input the spec does not allow the core to reject. -/
theorem c1_int8_target_dropped :
    ∃ r ∈ search rulesX 4 [{ trait := "X", target := 200 }] [] [] [champU "u"],
      ∃ req ∈ [({ trait := "X", target := 200 } : Req)],
        0 < req.target
        ∧ teamCountAt (tkeys rulesX) r.team
            ((tkeys rulesX).indexOf req.trait) < req.target := by
  decide

/-- C2: the per-unit `tCounts` is an `Int8Array`: a unit overriding its
trait count to 130 is stored as `ToInt8(130) = -126` and can never satisfy
the requirement inside the program, so `search` returns only teams with two
added units although the single override unit alone meets the target within
the slot budget — the returned teams are not minimal in the claim's sense. -/
theorem c2_int8_override_nonminimal :
    (∀ r ∈ search rulesX 8 [{ trait := "X", target := 2 }] [] []
        [champO, champU "u", champU "v"], 2 ≤ r.team.length)
    ∧ search rulesX 8 [{ trait := "X", target := 2 }] [] []
        [champO, champU "u", champU "v"] ≠ []
    ∧ 2 ≤ teamCountAt (tkeys rulesX) [champO] ((tkeys rulesX).indexOf "X")
    ∧ teamSlots [champO] ≤ 8 := by
  decide

/-! ## Ordering of the final result list -/

theorem resultLt_iff (a b : SearchResult) :
    resultLt a b = true
      ↔ (a.team.length < b.team.length
        ∨ (a.team.length = b.team.length ∧ b.score < a.score)
        ∨ (a.team.length = b.team.length ∧ a.score = b.score
            ∧ b.totalCost < a.totalCost)) := by
  unfold resultLt
  by_cases h1 : a.team.length = b.team.length
  · rw [if_pos h1]
    by_cases h2 : a.score = b.score
    · rw [if_pos h2]
      simp [h1, h2]
    · rw [if_neg h2]
      simp [h1, h2]
  · rw [if_neg h1]
    simp [h1]

theorem resultLt_false_trans (a b c : SearchResult)
    (h1 : resultLt b a = false) (h2 : resultLt c b = false) :
    resultLt c a = false := by
  by_contra hc
  have hca := (resultLt_iff c a).mp (Bool.of_not_eq_false hc)
  have hba : ¬ (resultLt b a = true) := by rw [h1]; simp
  have hcb : ¬ (resultLt c b = true) := by rw [h2]; simp
  rw [resultLt_iff] at hba hcb
  push_neg at hba hcb
  obtain ⟨hba1, hba2, hba3⟩ := hba
  obtain ⟨hcb1, hcb2, hcb3⟩ := hcb
  rcases hca with h | ⟨he, h⟩ | ⟨he, hs, h⟩ <;> omega

theorem resultLt_asymm (a b : SearchResult) (h : resultLt a b = true) :
    resultLt b a = false := by
  by_contra hc
  have h1 := (resultLt_iff a b).mp h
  have h2 := (resultLt_iff b a).mp (Bool.of_not_eq_false hc)
  rcases h1 with h1 | ⟨e1, h1⟩ | ⟨e1, s1, h1⟩ <;>
    rcases h2 with h2 | ⟨e2, h2⟩ | ⟨e2, s2, h2⟩ <;> omega

theorem insertResult_pairwise (x : SearchResult) (l : List SearchResult)
    (h : l.Pairwise (fun a b => resultLt b a = false)) :
    (insertResult x l).Pairwise (fun a b => resultLt b a = false) := by
  induction l with
  | nil => simp [insertResult]
  | cons y ys ih =>
    rw [List.pairwise_cons] at h
    rw [insertResult]
    split_ifs with hyx
    · rw [List.pairwise_cons]
      constructor
      · intro z hz
        rcases List.mem_cons.mp ((insertResult_perm x ys).mem_iff.mp hz)
          with rfl | hzys
        · exact resultLt_asymm y z hyx
        · exact h.1 z hzys
      · exact ih h.2
    · have hyx' : resultLt y x = false := by
        cases hres : resultLt y x
        · rfl
        · exact absurd hres hyx
      rw [List.pairwise_cons]
      constructor
      · intro z hz
        rcases List.mem_cons.mp hz with rfl | hzys
        · exact hyx'
        · exact resultLt_false_trans x y z hyx' (h.1 z hzys)
      · rw [List.pairwise_cons]
        exact h

theorem sortResults_pairwise (l : List SearchResult) :
    (sortResults l).Pairwise (fun a b => resultLt b a = false) := by
  induction l with
  | nil => simp [sortResults]
  | cons x xs ih =>
    rw [sortResults]
    exact insertResult_pairwise x _ ih

/-- C5: the returned list holds at most `MAX_RESULTS` records and is ordered
by team size ascending, then synergy score descending, then total cost
descending. -/
theorem c5_sorted_truncated (traitRules : List (String × List Int))
    (maxLevel : Nat) (reqs : List Req)
    (lockedL bannedL champions : List Champ) :
    (search traitRules maxLevel reqs lockedL bannedL champions).length
        ≤ MAX_RESULTS
    ∧ (search traitRules maxLevel reqs lockedL bannedL champions).Pairwise
        (fun a b => a.team.length ≤ b.team.length
          ∧ (a.team.length = b.team.length → b.score ≤ a.score
              ∧ (a.score = b.score → b.totalCost ≤ a.totalCost))) := by
  constructor
  · unfold search
    rw [List.length_take]
    exact Nat.min_le_left _ _
  · have hpw := sortResults_pairwise
      (searchRaw traitRules maxLevel reqs lockedL bannedL champions)
    have hsub : (search traitRules maxLevel reqs lockedL bannedL
        champions).Sublist (sortResults
          (searchRaw traitRules maxLevel reqs lockedL bannedL champions)) :=
      List.take_sublist _ _
    apply List.Pairwise.imp ?_ (List.Pairwise.sublist hsub hpw)
    intro a b hab
    have hfalse : ¬ (resultLt b a = true) := by rw [hab]; simp
    rw [resultLt_iff] at hfalse
    push_neg at hfalse
    obtain ⟨h1, h2, h3⟩ := hfalse
    refine ⟨by omega, fun he => ⟨by omega, fun hs => by omega⟩⟩

/-! ## The search with and without pruning agree -/

theorem iddfsAuxNP_zero (needed : List Int) (ths : List (List Int))
    (maxLevel : Nat) (cands : List Cand) (d : Nat) (st : SState) :
    iddfsAuxNP needed ths maxLevel cands 0 d st = st := rfl

theorem iddfsAuxNP_succ (needed : List Int) (ths : List (List Int))
    (maxLevel : Nat) (cands : List Cand) (fuel d : Nat) (st : SState) :
    iddfsAuxNP needed ths maxLevel cands (fuel + 1) d st
      = if 0 < st.results.length then st
        else iddfsAuxNP needed ths maxLevel cands fuel (d + 1)
          (solveDLNP needed ths maxLevel cands d st) := rfl

theorem iddfsAux_eq_NP (needed : List Int) (ths : List (List Int))
    (maxLevel : Nat) (cands : List Cand)
    (hcm : ∀ c ∈ cands, ∀ id ∈ c.traitIds, c.mask.testBit (id % 32) = true) :
    ∀ (fuel d : Nat) (st : SState),
      iddfsAux needed ths maxLevel cands fuel d st
        = iddfsAuxNP needed ths maxLevel cands fuel d st := by
  intro fuel
  induction fuel with
  | zero => intro d st; rfl
  | succ fuel ih =>
    intro d st
    rw [iddfsAux_succ, iddfsAuxNP_succ,
      solveDL_eq_solveDLNP needed ths maxLevel cands hcm d st]
    by_cases h : 0 < st.results.length
    · rw [if_pos h, if_pos h]
    · rw [if_neg h, if_neg h, ih]

/-- C4: the suffix-mask pruning check is semantically transparent — `search`
returns exactly the same result list as the same search with the pruning
check removed.  (When the check fires, no sublist of the remaining candidates
can close the unsatisfied traits, so the pruned subtree records nothing.) -/
theorem c4_prune_equivalence (traitRules : List (String × List Int))
    (maxLevel : Nat) (reqs : List Req)
    (lockedL bannedL champions : List Champ) :
    search traitRules maxLevel reqs lockedL bannedL champions
      = searchNoPrune traitRules maxLevel reqs lockedL bannedL champions := by
  have hraw : searchRaw traitRules maxLevel reqs lockedL bannedL champions
      = (if maxLevel < (st0Of traitRules lockedL).slots then []
         else (iddfsAuxNP (neededOf traitRules reqs) (buildThresholds traitRules)
             maxLevel (candsOf traitRules reqs lockedL bannedL champions)
             (maxLevel - (st0Of traitRules lockedL).slots + 1) 0
             (st0Of traitRules lockedL)).results) := by
    rw [searchRaw_eq, iddfsAux_eq_NP (neededOf traitRules reqs)
      (buildThresholds traitRules) maxLevel
      (candsOf traitRules reqs lockedL bannedL champions)
      (candListOf_wf_mask (tkeys traitRules) champions lockedL bannedL _ _)]
  show (sortResults (searchRaw traitRules maxLevel reqs lockedL bannedL
      champions)).take MAX_RESULTS
    = (sortResults (if maxLevel < (st0Of traitRules lockedL).slots then []
        else (iddfsAuxNP (neededOf traitRules reqs)
            (buildThresholds traitRules) maxLevel
            (candsOf traitRules reqs lockedL bannedL champions)
            (maxLevel - (st0Of traitRules lockedL).slots + 1) 0
            (st0Of traitRules lockedL)).results)).take MAX_RESULTS
  rw [hraw]

/-! ## The recorded-results cap -/

theorem iddfsAux_results_le (needed : List Int) (ths : List (List Int))
    (maxLevel : Nat) (cands : List Cand) :
    ∀ (fuel d : Nat) (st : SState),
      st.results.length ≤ MAX_RESULTS * 2 →
      (iddfsAux needed ths maxLevel cands fuel d st).results.length
        ≤ MAX_RESULTS * 2 := by
  intro fuel
  induction fuel with
  | zero => intro d st h; exact h
  | succ fuel ih =>
    intro d st h
    rw [iddfsAux_succ]
    by_cases hres : 0 < st.results.length
    · rw [if_pos hres]; exact h
    · rw [if_neg hres]
      exact ih (d + 1) _ (solveDL_results_le needed ths maxLevel cands d st h)

set_option maxRecDepth 100000 in
/-- C10 counterexample: with 51 one-trait units and the requirement `X ≥ 1`,
the search records 51 results — more than `MAX_RESULTS = 50` — before the
final truncation, refuting the claim that recording stops at `MAX_RESULTS`. -/
theorem c10_claim_counterexample :
    MAX_RESULTS < (searchRaw rulesX 9 [{ trait := "X", target := 1 }] [] []
      (List.replicate 51 (champU "u"))).length := by
  decide

/-- C10 (amended): the recursion stops recording once `MAX_RESULTS * 2`
results have been recorded; the number of recorded results never exceeds
`MAX_RESULTS * 2` (the returned list is separately truncated to
`MAX_RESULTS`). -/
theorem c10_results_cap (traitRules : List (String × List Int))
    (maxLevel : Nat) (reqs : List Req)
    (lockedL bannedL champions : List Champ) :
    (searchRaw traitRules maxLevel reqs lockedL bannedL champions).length
      ≤ MAX_RESULTS * 2 := by
  rw [searchRaw_eq]
  by_cases hguard : maxLevel < (st0Of traitRules lockedL).slots
  · rw [if_pos hguard]
    simp [MAX_RESULTS]
  · rw [if_neg hguard]
    apply iddfsAux_results_le
    rw [st0_results_nil]
    simp [MAX_RESULTS]

/-! ## Requirement preprocessing: decomposition lemmas -/

theorem traitToId_inj (keys : List String) (s t : String) (id : Nat)
    (hs : traitToId keys s = some id) (ht : traitToId keys t = some id) :
    s = t := by
  by_cases hsm : s ∈ keys
  · by_cases htm : t ∈ keys
    · rw [traitToId, if_pos hsm] at hs
      rw [traitToId, if_pos htm] at ht
      injection hs with hs'
      injection ht with ht'
      have hlts : keys.indexOf s < keys.length :=
        List.indexOf_lt_length.mpr hsm
      have hltt : keys.indexOf t < keys.length :=
        List.indexOf_lt_length.mpr htm
      have h1 : keys.get ⟨keys.indexOf s, hlts⟩ = s := by
        rw [List.get_eq_getElem]
        exact List.getElem_indexOf hlts
      have h2 : keys.get ⟨keys.indexOf t, hltt⟩ = t := by
        rw [List.get_eq_getElem]
        exact List.getElem_indexOf hltt
      have hfin : (⟨keys.indexOf s, hlts⟩ : Fin keys.length)
          = ⟨keys.indexOf t, hltt⟩ := by
        apply Fin.ext
        show keys.indexOf s = keys.indexOf t
        rw [hs', ht']
      rw [← h1, ← h2, hfin]
    · rw [traitToId, if_neg htm] at ht
      cases ht
  · rw [traitToId, if_neg hsm] at hs
    cases hs

theorem reqFold_counts_indep (keys : List String) (reqs : List Req) :
    ∀ (c : List Int) (m m' : Nat) (h h' : Bool),
      (reqs.foldl (fun acc r =>
        match traitToId keys r.trait with
        | some id => (acc.1.set id (toInt8 r.target), acc.2.1 ||| 2 ^ (id % 32), true)
        | none => acc) (c, m, h)).1
      = (reqs.foldl (fun acc r =>
        match traitToId keys r.trait with
        | some id => (acc.1.set id (toInt8 r.target), acc.2.1 ||| 2 ^ (id % 32), true)
        | none => acc) (c, m', h')).1 := by
  induction reqs with
  | nil => intro c m m' h h'; rfl
  | cons r tl ih =>
    intro c m m' h h'
    rw [List.foldl_cons, List.foldl_cons]
    cases hid : traitToId keys r.trait with
    | none => simp only [hid]; exact ih c m m' h h'
    | some id => simp only [hid]; exact ih _ _ _ _ _

theorem reqFold_counts_untouched (keys : List String) (reqs : List Req)
    (i : Nat) (hno : ∀ q ∈ reqs, traitToId keys q.trait ≠ some i) :
    ∀ (acc : List Int × Nat × Bool),
      (reqs.foldl (fun acc r =>
        match traitToId keys r.trait with
        | some id => (acc.1.set id (toInt8 r.target), acc.2.1 ||| 2 ^ (id % 32), true)
        | none => acc) acc).1.getD i 0 = acc.1.getD i 0 := by
  induction reqs with
  | nil => intro acc; rfl
  | cons r tl ih =>
    intro acc
    rw [List.foldl_cons]
    have ih' := ih (fun q hq => hno q (List.mem_cons_of_mem _ hq))
    cases hid : traitToId keys r.trait with
    | none => simp only [hid]; exact ih' acc
    | some id =>
      simp only [hid]
      rw [ih' _]
      show (acc.1.set id (toInt8 r.target)).getD i 0 = acc.1.getD i 0
      exact getD_set_ne _ _ (fun he =>
        hno r (List.mem_cons_self _ _) (by rw [hid, he]))

theorem reqFold_counts_length (keys : List String) (reqs : List Req) :
    ∀ (acc : List Int × Nat × Bool),
      (reqs.foldl (fun acc r =>
        match traitToId keys r.trait with
        | some id => (acc.1.set id (toInt8 r.target), acc.2.1 ||| 2 ^ (id % 32), true)
        | none => acc) acc).1.length = acc.1.length := by
  induction reqs with
  | nil => intro acc; rfl
  | cons r tl ih =>
    intro acc
    rw [List.foldl_cons]
    cases hid : traitToId keys r.trait with
    | none => simp only [hid]; exact ih acc
    | some id =>
      simp only [hid]
      rw [ih _]
      exact List.length_set _ _ _

theorem reqState_counts_length (keys : List String) (reqs : List Req) :
    (reqState keys reqs).1.length = keys.length := by
  unfold reqState
  rw [reqFold_counts_length]
  exact List.length_replicate _ _

theorem reqFold_mask_testBit (keys : List String) (reqs : List Req) (b : Nat) :
    ∀ (acc : List Int × Nat × Bool),
      ((reqs.foldl (fun acc r =>
        match traitToId keys r.trait with
        | some id => (acc.1.set id (toInt8 r.target), acc.2.1 ||| 2 ^ (id % 32), true)
        | none => acc) acc).2.1.testBit b = true)
      ↔ (acc.2.1.testBit b = true
          ∨ ∃ q ∈ reqs, ∃ id, traitToId keys q.trait = some id ∧ id % 32 = b) := by
  induction reqs with
  | nil => intro acc; simp
  | cons r tl ih =>
    intro acc
    rw [List.foldl_cons]
    cases hid : traitToId keys r.trait with
    | none =>
      simp only [hid]
      rw [ih acc]
      constructor
      · rintro (h | ⟨q, hq, id, h1, h2⟩)
        · exact Or.inl h
        · exact Or.inr ⟨q, List.mem_cons_of_mem _ hq, id, h1, h2⟩
      · rintro (h | ⟨q, hq, id, h1, h2⟩)
        · exact Or.inl h
        · rcases List.mem_cons.mp hq with rfl | hq'
          · rw [hid] at h1; cases h1
          · exact Or.inr ⟨q, hq', id, h1, h2⟩
    | some id =>
      simp only [hid]
      rw [ih _]
      show (acc.2.1 ||| 2 ^ (id % 32)).testBit b = true
          ∨ _ ↔ _
      rw [Nat.testBit_lor]
      simp only [Bool.or_eq_true, Nat.testBit_two_pow, decide_eq_true_eq]
      constructor
      · rintro (⟨h | h⟩ | ⟨q, hq, id', h1, h2⟩)
        · exact Or.inl h
        · exact Or.inr ⟨r, List.mem_cons_self _ _, id, hid, h⟩
        · exact Or.inr ⟨q, List.mem_cons_of_mem _ hq, id', h1, h2⟩
      · rintro (h | ⟨q, hq, id', h1, h2⟩)
        · exact Or.inl (Or.inl h)
        · rcases List.mem_cons.mp hq with rfl | hq'
          · rw [hid] at h1
            cases h1
            exact Or.inl (Or.inr h2)
          · exact Or.inr ⟨q, hq', id', h1, h2⟩

theorem reqState_mask_testBit (keys : List String) (reqs : List Req) (b : Nat) :
    ((reqState keys reqs).2.1.testBit b = true)
      ↔ ∃ q ∈ reqs, ∃ id, traitToId keys q.trait = some id ∧ id % 32 = b := by
  unfold reqState
  rw [reqFold_mask_testBit]
  simp

theorem reqFold_hasReq (keys : List String) (reqs : List Req) :
    ∀ (acc : List Int × Nat × Bool),
      ((reqs.foldl (fun acc r =>
        match traitToId keys r.trait with
        | some id => (acc.1.set id (toInt8 r.target), acc.2.1 ||| 2 ^ (id % 32), true)
        | none => acc) acc).2.2 = true)
      ↔ (acc.2.2 = true ∨ ∃ q ∈ reqs, traitToId keys q.trait ≠ none) := by
  induction reqs with
  | nil => intro acc; simp
  | cons r tl ih =>
    intro acc
    rw [List.foldl_cons]
    cases hid : traitToId keys r.trait with
    | none =>
      simp only [hid]
      rw [ih acc]
      constructor
      · rintro (h | ⟨q, hq, h1⟩)
        · exact Or.inl h
        · exact Or.inr ⟨q, List.mem_cons_of_mem _ hq, h1⟩
      · rintro (h | ⟨q, hq, h1⟩)
        · exact Or.inl h
        · rcases List.mem_cons.mp hq with rfl | hq'
          · exact absurd hid h1
          · exact Or.inr ⟨q, hq', h1⟩
    | some id =>
      simp only [hid]
      rw [ih _]
      constructor
      · intro _
        exact Or.inr ⟨r, List.mem_cons_self _ _, by rw [hid]; simp⟩
      · intro _
        exact Or.inl rfl

theorem reqState_hasReq (keys : List String) (reqs : List Req) :
    ((reqState keys reqs).2.2 = true)
      ↔ ∃ q ∈ reqs, traitToId keys q.trait ≠ none := by
  unfold reqState
  rw [reqFold_hasReq]
  simp

theorem reqMask_of_needed_pos (keys : List String) (reqs : List Req) (i : Nat)
    (h : 0 < (reqState keys reqs).1.getD i 0) :
    (reqState keys reqs).2.1.testBit (i % 32) = true := by
  by_contra hb
  rw [reqState_mask_testBit] at hb
  push_neg at hb
  have hno : ∀ q ∈ reqs, traitToId keys q.trait ≠ some i := by
    intro q hq hqi
    exact hb q hq i hqi rfl
  have := reqFold_counts_untouched keys reqs i hno
    (List.replicate keys.length 0, 0, false)
  unfold reqState at h
  rw [this] at h
  rw [getD_replicate_zero] at h
  exact absurd h (by omega)

theorem set_self_of_getD (l : List Int) (i : Nat) (v : Int)
    (hlen : i < l.length) (hv : l.getD i 0 = v) : l.set i v = l := by
  induction l generalizing i with
  | nil => cases hlen
  | cons x xs ih =>
    cases i with
    | zero =>
      rw [List.set_cons_zero]
      have : x = v := by
        rw [← hv]
        rfl
      rw [this]
    | succ j =>
      rw [List.set_cons_succ]
      rw [ih j (by simpa using hlen) (by rw [← hv]; rfl)]

theorem reqFold_all_unknown (keys : List String) (reqs : List Req)
    (h : ∀ q ∈ reqs, traitToId keys q.trait = none) :
    ∀ (acc : List Int × Nat × Bool),
      reqs.foldl (fun acc r =>
        match traitToId keys r.trait with
        | some id => (acc.1.set id (toInt8 r.target), acc.2.1 ||| 2 ^ (id % 32), true)
        | none => acc) acc = acc := by
  induction reqs with
  | nil => intro acc; rfl
  | cons r tl ih =>
    intro acc
    rw [List.foldl_cons]
    have hr := h r (List.mem_cons_self _ _)
    simp only [hr]
    exact ih (fun q hq => h q (List.mem_cons_of_mem _ hq)) acc

theorem reqState_skip_unknown (keys : List String) (pre post : List Req)
    (e : Req) (he : traitToId keys e.trait = none) :
    reqState keys (pre ++ e :: post) = reqState keys (pre ++ post) := by
  unfold reqState
  rw [List.foldl_append, List.foldl_append, List.foldl_cons]
  simp only [he]

theorem reqState_counts_skip_zero (keys : List String) (pre post : List Req)
    (e : Req) (h0 : e.target = 0)
    (hno : ∀ q ∈ pre ++ post, q.trait ≠ e.trait) :
    (reqState keys (pre ++ e :: post)).1 = (reqState keys (pre ++ post)).1 := by
  cases hid : traitToId keys e.trait with
  | none => rw [reqState_skip_unknown keys pre post e hid]
  | some id0 =>
    unfold reqState
    rw [List.foldl_append, List.foldl_append, List.foldl_cons]
    have hnopre : ∀ q ∈ pre, traitToId keys q.trait ≠ some id0 := by
      intro q hq hqid
      exact hno q (List.mem_append_left _ hq)
        (traitToId_inj keys q.trait e.trait id0 hqid hid)
    have hzero : (pre.foldl (fun acc r =>
        match traitToId keys r.trait with
        | some id => (acc.1.set id (toInt8 r.target), acc.2.1 ||| 2 ^ (id % 32), true)
        | none => acc) (List.replicate keys.length 0, 0, false)).1.getD id0 0
        = 0 := by
      rw [reqFold_counts_untouched keys pre id0 hnopre]
      exact getD_replicate_zero _ _
    have hlen : id0 < (pre.foldl (fun acc r =>
        match traitToId keys r.trait with
        | some id => (acc.1.set id (toInt8 r.target), acc.2.1 ||| 2 ^ (id % 32), true)
        | none => acc) (List.replicate keys.length 0, 0, false)).1.length := by
      rw [reqFold_counts_length, List.length_replicate]
      exact traitToId_lt keys e.trait id0 hid
    simp only [hid]
    rw [h0, toInt8_zero]
    rw [set_self_of_getD _ _ _ hlen hzero]
    exact reqFold_counts_indep keys post _ _ _ _ _

theorem unsat_replicate_zero (n : Nat) (counts : List Int) :
    getUnsatisfiedMask (List.replicate n (0 : Int)) counts = 0 := by
  apply nat_eq_zero_of_testBit
  intro b
  by_contra hb
  obtain ⟨i, hi, ⟨hpos, _⟩, _⟩ :=
    (testBit_unsat _ _ b).mp (Bool.of_not_eq_false hb)
  rw [getD_replicate_zero] at hpos
  exact absurd hpos (by omega)

theorem solveDL_record_any (needed : List Int) (ths : List (List Int))
    (maxLevel : Nat) (cands : List Cand) (k : Nat) (st : SState)
    (h1 : ¬ MAX_RESULTS * 2 ≤ st.results.length)
    (h2 : getUnsatisfiedMask needed st.counts = 0) :
    solveDL needed ths maxLevel cands k st
      = { st with results := st.results ++ [recordResult ths st] } := by
  cases cands with
  | nil => rw [solveDL_nil, if_neg h1, if_pos h2]
  | cons c rest => rw [solveDL_cons, if_neg h1, if_pos h2]

theorem searchRaw_immediate (tr : List (String × List Int)) (maxLevel : Nat)
    (reqs : List Req) (lockedL bannedL champions : List Champ)
    (h : getUnsatisfiedMask (neededOf tr reqs) (st0Of tr lockedL).counts = 0) :
    searchRaw tr maxLevel reqs lockedL bannedL champions
      = if maxLevel < (st0Of tr lockedL).slots then []
        else [recordResult (buildThresholds tr) (st0Of tr lockedL)] := by
  rw [searchRaw_eq]
  by_cases hguard : maxLevel < (st0Of tr lockedL).slots
  · rw [if_pos hguard, if_pos hguard]
  · rw [if_neg hguard, if_neg hguard]
    rw [iddfsAux_succ, if_neg (by rw [st0_results_nil]; simp)]
    rw [solveDL_record_any _ _ _ _ _ _
      (by rw [st0_results_nil]; simp [MAX_RESULTS]) h]
    rw [iddfsAux_of_nonempty _ _ _ _ _ _ _
      (by rw [st0_results_nil]; simp)]
    rw [st0_results_nil]
    rfl

/-! ## Extensions by useless candidates -/

theorem extendState_counts_getD_notouch (st : SState) (ext : List Cand)
    (i : Nat) (h : ∀ c ∈ ext, i ∉ c.traitIds) :
    (extendState st ext).counts.getD i 0 = st.counts.getD i 0 := by
  induction ext generalizing st with
  | nil => rw [extendState_nil]
  | cons c tl ih =>
    rw [extendState_cons]
    rw [ih (addState st c) (fun d hd => h d (List.mem_cons_of_mem _ hd))]
    exact applyCandCounts_getD_not_mem c st.counts i
      (h c (List.mem_cons_self _ _))

theorem sum_map_filter_eq_int (p : Cand → Bool) (l : List Cand)
    (f : Cand → Int) (h : ∀ c ∈ l, p c = false → f c = 0) :
    ((l.filter p).map f).sum = (l.map f).sum := by
  induction l with
  | nil => rfl
  | cons c tl ih =>
    have ih' := ih (fun d hd => h d (List.mem_cons_of_mem _ hd))
    by_cases hc : p c
    · rw [List.filter_cons_of_pos hc]
      simp only [List.map_cons, List.sum_cons]
      rw [ih']
    · rw [List.filter_cons_of_neg hc]
      simp only [List.map_cons, List.sum_cons]
      rw [ih', h c (List.mem_cons_self _ _) (by
        cases hpc : p c
        · rfl
        · exact absurd hpc hc)]
      omega

theorem sum_map_filter_le_nat (p : Cand → Bool) (l : List Cand)
    (f : Cand → Nat) :
    ((l.filter p).map f).sum ≤ (l.map f).sum := by
  induction l with
  | nil => exact Nat.le_refl _
  | cons c tl ih =>
    by_cases hc : p c
    · rw [List.filter_cons_of_pos hc]
      simp only [List.map_cons, List.sum_cons]
      omega
    · rw [List.filter_cons_of_neg hc]
      simp only [List.map_cons, List.sum_cons]
      omega

theorem foldl_filter_skip (p : Cand → Bool) (g : Int → Cand → Int)
    (l : List Cand) (a : Int)
    (h : ∀ c ∈ l, p c = false → ∀ v, g v c = v) :
    (l.filter p).foldl g a = l.foldl g a := by
  induction l generalizing a with
  | nil => rfl
  | cons c tl ih =>
    by_cases hc : p c
    · rw [List.filter_cons_of_pos hc, List.foldl_cons, List.foldl_cons]
      exact ih _ (fun d hd => h d (List.mem_cons_of_mem _ hd))
    · rw [List.filter_cons_of_neg hc, List.foldl_cons]
      rw [h c (List.mem_cons_self _ _) (by
        cases hpc : p c
        · rfl
        · exact absurd hpc hc) a]
      exact ih _ (fun d hd => h d (List.mem_cons_of_mem _ hd))

theorem extend_unsat_congr (needed : List Int) (s1 s2 : SState)
    (ext : List Cand) (hlen : s1.counts.length = s2.counts.length)
    (hwf : ∀ c ∈ ext, ∀ id ∈ c.traitIds, id < s1.counts.length)
    (hbase : ∀ i, i < needed.length → 0 < needed.getD i 0
      → s1.counts.getD i 0 = s2.counts.getD i 0) :
    getUnsatisfiedMask needed (extendState s1 ext).counts
      = getUnsatisfiedMask needed (extendState s2 ext).counts := by
  apply unsat_congr
  intro i hi hpos
  rw [extendState_counts_getD_wrap _ _ _ hwf,
    extendState_counts_getD_wrap _ _ _ (fun c hc id hid => by
      rw [← hlen]; exact hwf c hc id hid),
    hbase i hi hpos]

theorem extend_filter_unsat (needed : List Int) (useful : Cand → Bool)
    (st : SState) (ext : List Cand)
    (hwf : ∀ c ∈ ext, ∀ id ∈ c.traitIds, id < st.counts.length)
    (hnt : ∀ c ∈ ext, useful c = false →
      ∀ i, i < needed.length → 0 < needed.getD i 0 → i ∉ c.traitIds) :
    getUnsatisfiedMask needed (extendState st (ext.filter useful)).counts
      = getUnsatisfiedMask needed (extendState st ext).counts := by
  apply unsat_congr
  intro i hi hpos
  rw [extendState_counts_getD_wrap _ _ _
      (fun c hc => hwf c (List.mem_of_mem_filter hc)),
    extendState_counts_getD_wrap _ _ _ hwf]
  apply foldl_filter_skip
  intro c hc hcu v
  have hni : i ∉ c.traitIds := hnt c hc hcu i hi hpos
  rw [List.count_eq_zero.mpr hni]
  rfl

theorem suffixOr_testBit_mono (l1 l2 : List Cand)
    (h : ∀ c ∈ l1, c ∈ l2) (b : Nat)
    (hb : (suffixOr l1).testBit b = true) :
    (suffixOr l2).testBit b = true := by
  obtain ⟨c, hc, hcb⟩ := (testBit_suffixOr l1 b).mp hb
  exact (testBit_suffixOr l2 b).mpr ⟨c, h c hc, hcb⟩

theorem solveDL_cap_eq (needed : List Int) (ths : List (List Int))
    (maxLevel : Nat) (cands : List Cand) (k : Nat) (st : SState)
    (h : MAX_RESULTS * 2 ≤ st.results.length) :
    solveDL needed ths maxLevel cands k st = st := by
  cases cands with
  | nil => rw [solveDL_nil, if_pos h]
  | cons c rest => rw [solveDL_cons, if_pos h]

theorem solveDL_stuck_eq (needed : List Int) (ths : List (List Int))
    (maxLevel : Nat) (cands : List Cand) (k : Nat) (st : SState)
    (h1 : ¬ MAX_RESULTS * 2 ≤ st.results.length)
    (h2 : ¬ getUnsatisfiedMask needed st.counts = 0)
    (h34 : k = 0 ∨ maxLevel ≤ st.slots) :
    solveDL needed ths maxLevel cands k st = st := by
  cases cands with
  | nil => rw [solveDL_nil, if_neg h1, if_neg h2]
  | cons c rest =>
    rw [solveDL_cons, if_neg h1, if_neg h2]
    by_cases h3 : k = 0
    · rw [if_pos h3]
    · rw [if_neg h3, if_pos (by
        rcases h34 with h | h
        · exact absurd h h3
        · exact h)]

theorem solveDL_pruned (needed : List Int) (ths : List (List Int))
    (maxLevel : Nat) (cand : Cand) (rest : List Cand) (k : Nat) (st : SState)
    (h1 : ¬ MAX_RESULTS * 2 ≤ st.results.length)
    (h2 : ¬ getUnsatisfiedMask needed st.counts = 0)
    (h3 : ¬ k = 0) (h4 : ¬ maxLevel ≤ st.slots)
    (h5 : getUnsatisfiedMask needed st.counts &&& suffixOr (cand :: rest)
      ≠ getUnsatisfiedMask needed st.counts) :
    solveDL needed ths maxLevel (cand :: rest) k st = st := by
  rw [solveDL_cons, if_neg h1, if_neg h2, if_neg h3, if_neg h4, if_pos h5]

theorem solveDL_step (needed : List Int) (ths : List (List Int))
    (maxLevel : Nat) (cand : Cand) (rest : List Cand) (k : Nat) (st : SState)
    (h1 : ¬ MAX_RESULTS * 2 ≤ st.results.length)
    (h2 : ¬ getUnsatisfiedMask needed st.counts = 0)
    (h3 : ¬ k = 0) (h4 : ¬ maxLevel ≤ st.slots)
    (h5 : ¬ getUnsatisfiedMask needed st.counts &&& suffixOr (cand :: rest)
      ≠ getUnsatisfiedMask needed st.counts) :
    solveDL needed ths maxLevel (cand :: rest) k st
      = solveDL needed ths maxLevel rest k
          (if st.slots + cand.slots ≤ maxLevel then
            { st with results :=
                (solveDL needed ths maxLevel rest (k - 1)
                  (addState st cand)).results }
          else st) := by
  rw [solveDL_cons, if_neg h1, if_neg h2, if_neg h3, if_neg h4, if_neg h5]

/-- When some still-unsatisfied trait is touched by no candidate at all,
the whole subtree is silent. -/
theorem solveDL_silent_of_unreached (needed : List Int) (ths : List (List Int))
    (maxLevel : Nat) (l : List Cand) (k : Nat) (st : SState)
    (hslots : st.slots ≤ maxLevel)
    (i : Nat) (hi : i < needed.length) (hpos : 0 < needed.getD i 0)
    (hlt : st.counts.getD i 0 < needed.getD i 0)
    (hfrozen : ∀ d ∈ l, i ∉ d.traitIds) :
    solveDL needed ths maxLevel l k st = st := by
  apply solveDL_silent _ _ _ _ _ _ hslots
  intro ext hsub hlen hsat hsl
  have hfr : (extendState st ext).counts.getD i 0 = st.counts.getD i 0 :=
    extendState_counts_getD_notouch st ext i
      (fun d hd => hfrozen d (hsub.subset hd))
  have hbit : (getUnsatisfiedMask needed
      (extendState st ext).counts).testBit (i % 32) = true :=
    (testBit_unsat _ _ _).mpr ⟨i, hi, ⟨hpos, by rw [hfr]; exact hlt⟩, rfl⟩
  exact nat_ne_zero_of_testBit hbit hsat

/-- Removing candidates that touch no positive-target trait does not change
the outcome of the depth-limited search, provided the depth budget is not
reachable by any feasible extension drawn from the kept candidates alone. -/
theorem solveDL_filter_useless (needed : List Int) (ths : List (List Int))
    (maxLevel : Nat) (useful : Cand → Bool) (cands : List Cand) :
    ∀ (k : Nat) (st : SState),
      (∀ c ∈ cands, ∀ id ∈ c.traitIds, c.mask.testBit (id % 32) = true) →
      (∀ c ∈ cands, ∀ id ∈ c.traitIds, id < st.counts.length) →
      (∀ c ∈ cands, useful c = false →
        ∀ i, i < needed.length → 0 < needed.getD i 0 → i ∉ c.traitIds) →
      st.slots ≤ maxLevel →
      (∀ ext, ext.Sublist (cands.filter useful) →
        getUnsatisfiedMask needed (extendState st ext).counts = 0 →
        (extendState st ext).slots ≤ maxLevel → k ≤ ext.length) →
      solveDL needed ths maxLevel cands k st
        = solveDL needed ths maxLevel (cands.filter useful) k st := by
  induction cands with
  | nil => intro k st _ _ _ _ _; rfl
  | cons cand rest ih =>
    intro k st hcm hwf hnt hslots hmin
    have hcm' : ∀ c ∈ rest, ∀ id ∈ c.traitIds,
        c.mask.testBit (id % 32) = true :=
      fun c hc => hcm c (List.mem_cons_of_mem _ hc)
    have hwf' : ∀ c ∈ rest, ∀ id ∈ c.traitIds, id < st.counts.length :=
      fun c hc => hwf c (List.mem_cons_of_mem _ hc)
    have hnt' : ∀ c ∈ rest, useful c = false →
        ∀ i, i < needed.length → 0 < needed.getD i 0 → i ∉ c.traitIds :=
      fun c hc => hnt c (List.mem_cons_of_mem _ hc)
    by_cases h1 : MAX_RESULTS * 2 ≤ st.results.length
    · rw [solveDL_cap_eq _ _ _ _ _ _ h1, solveDL_cap_eq _ _ _ _ _ _ h1]
    by_cases h2 : getUnsatisfiedMask needed st.counts = 0
    · rw [solveDL_record_any _ _ _ _ _ _ h1 h2,
        solveDL_record_any _ _ _ _ _ _ h1 h2]
    by_cases h3 : k = 0
    · rw [solveDL_stuck_eq _ _ _ _ _ _ h1 h2 (Or.inl h3),
        solveDL_stuck_eq _ _ _ _ _ _ h1 h2 (Or.inl h3)]
    by_cases h4 : maxLevel ≤ st.slots
    · rw [solveDL_stuck_eq _ _ _ _ _ _ h1 h2 (Or.inr h4),
        solveDL_stuck_eq _ _ _ _ _ _ h1 h2 (Or.inr h4)]
    by_cases hu : useful cand = true
    · -- the head candidate is kept by the filter
      have hfilp : (cand :: rest).filter useful = cand :: rest.filter useful :=
        List.filter_cons_of_pos hu
      rw [hfilp]
      by_cases h5E : getUnsatisfiedMask needed st.counts
          &&& suffixOr (cand :: rest.filter useful)
          ≠ getUnsatisfiedMask needed st.counts
      · -- the filtered list prunes: the full list is silent as well
        obtain ⟨b, hub, hsb⟩ := (land_ne_self_iff _ _).mp h5E
        obtain ⟨i, hi, ⟨hpos, hlt⟩, hib⟩ := (testBit_unsat _ _ b).mp hub
        have hfrozen : ∀ d ∈ cand :: rest, i ∉ d.traitIds := by
          intro d hd hid
          by_cases hud : useful d = true
          · have hdm : d.mask.testBit b = true := by
              rw [← hib]
              exact hcm d hd i hid
            have hdmem : d ∈ cand :: rest.filter useful := by
              rcases List.mem_cons.mp hd with rfl | hd'
              · exact List.mem_cons_self _ _
              · exact List.mem_cons_of_mem _ (List.mem_filter.mpr ⟨hd', hud⟩)
            have := (testBit_suffixOr (cand :: rest.filter useful) b).mpr
              ⟨d, hdmem, hdm⟩
            rw [this] at hsb
            cases hsb
          · exact hnt d hd (Bool.eq_false_iff.mpr hud) i hi hpos hid
        rw [solveDL_silent_of_unreached _ _ _ _ _ _
            (Nat.le_of_not_le h4) i hi hpos hlt hfrozen,
          solveDL_silent_of_unreached _ _ _ _ _ _
            (Nat.le_of_not_le h4) i hi hpos hlt
            (fun d hd => hfrozen d (by
              rcases List.mem_cons.mp hd with rfl | hd'
              · exact List.mem_cons_self _ _
              · exact List.mem_cons_of_mem _ (List.mem_of_mem_filter hd')))]
      · -- neither list prunes
        have h5I : ¬ getUnsatisfiedMask needed st.counts
            &&& suffixOr (cand :: rest)
            ≠ getUnsatisfiedMask needed st.counts := by
          intro h5
          apply h5E
          obtain ⟨b, hub, hsb⟩ := (land_ne_self_iff _ _).mp h5
          refine (land_ne_self_iff _ _).mpr ⟨b, hub, ?_⟩
          cases hsE : (suffixOr (cand :: rest.filter useful)).testBit b with
          | false => rfl
          | true =>
            rw [suffixOr_testBit_mono (cand :: rest.filter useful)
              (cand :: rest) (fun c hc => by
                rcases List.mem_cons.mp hc with rfl | hc'
                · exact List.mem_cons_self _ _
                · exact List.mem_cons_of_mem _ (List.mem_of_mem_filter hc'))
              b hsE] at hsb
            cases hsb
        rw [solveDL_step _ _ _ _ _ _ _ h1 h2 h3 h4 h5I,
          solveDL_step _ _ _ _ _ _ _ h1 h2 h3 h4 h5E]
        have hminS : ∀ ext, ext.Sublist (rest.filter useful) →
            getUnsatisfiedMask needed (extendState st ext).counts = 0 →
            (extendState st ext).slots ≤ maxLevel → k ≤ ext.length := by
          intro ext hsub hsat hsl
          apply hmin ext _ hsat hsl
          rw [hfilp]
          exact hsub.cons _
        by_cases hg : st.slots + cand.slots ≤ maxLevel
        · rw [if_pos hg, if_pos hg]
          have hwfA : ∀ c ∈ rest, ∀ id ∈ c.traitIds,
              id < (addState st cand).counts.length := by
            intro c hc id hid
            have : (addState st cand).counts.length = st.counts.length :=
              applyCandCounts_length _ _
            rw [this]
            exact hwf' c hc id hid
          have hslA : (addState st cand).slots ≤ maxLevel := hg
          have hminA : ∀ ext, ext.Sublist (rest.filter useful) →
              getUnsatisfiedMask needed
                (extendState (addState st cand) ext).counts = 0 →
              (extendState (addState st cand) ext).slots ≤ maxLevel →
              k - 1 ≤ ext.length := by
            intro ext hsub hsat hsl
            have hk := hmin (cand :: ext) (by
                rw [hfilp]
                exact hsub.cons₂ _)
              (by rw [extendState_cons]; exact hsat)
              (by rw [extendState_cons]; exact hsl)
            simp only [List.length_cons] at hk
            omega
          have hinner := ih (k - 1) (addState st cand) hcm' hwfA hnt' hslA hminA
          rw [hinner]
          have houter := ih k
            ({ st with results :=
                (solveDL needed ths maxLevel (rest.filter useful) (k - 1)
                  (addState st cand)).results })
            hcm' hwf' hnt' (Nat.le_of_not_le h4)
            (by
              intro ext hsub hsat hsl
              apply hminS ext hsub
              · rw [extendState_set_results] at hsat
                exact hsat
              · rw [extendState_set_results] at hsl
                exact hsl)
          exact houter
        · rw [if_neg hg, if_neg hg]
          exact ih k st hcm' hwf' hnt' (Nat.le_of_not_le h4) hminS
    · -- the head candidate is dropped by the filter
      have huf : useful cand = false := Bool.eq_false_iff.mpr hu
      have hfiln : (cand :: rest).filter useful = rest.filter useful :=
        List.filter_cons_of_neg hu
      rw [hfiln]
      have hminS : ∀ ext, ext.Sublist (rest.filter useful) →
          getUnsatisfiedMask needed (extendState st ext).counts = 0 →
          (extendState st ext).slots ≤ maxLevel → k ≤ ext.length := by
        intro ext hsub hsat hsl
        apply hmin ext _ hsat hsl
        rw [hfiln]
        exact hsub
      by_cases h5I : getUnsatisfiedMask needed st.counts
          &&& suffixOr (cand :: rest)
          ≠ getUnsatisfiedMask needed st.counts
      · -- the full list prunes: the filtered list is silent as well
        obtain ⟨b, hub, hsb⟩ := (land_ne_self_iff _ _).mp h5I
        obtain ⟨i, hi, ⟨hpos, hlt⟩, hib⟩ := (testBit_unsat _ _ b).mp hub
        have hfrozen : ∀ d ∈ rest.filter useful, i ∉ d.traitIds := by
          intro d hd hid
          have hdm : d.mask.testBit b = true := by
            rw [← hib]
            exact hcm' d (List.mem_of_mem_filter hd) i hid
          have := (testBit_suffixOr (cand :: rest) b).mpr
            ⟨d, List.mem_cons_of_mem _ (List.mem_of_mem_filter hd), hdm⟩
          rw [this] at hsb
          cases hsb
        rw [solveDL_pruned _ _ _ _ _ _ _ h1 h2 h3 h4 h5I,
          solveDL_silent_of_unreached _ _ _ _ _ _
            (Nat.le_of_not_le h4) i hi hpos hlt hfrozen]
      · -- no prune: the useless head's add-subtree is silent
        rw [solveDL_step _ _ _ _ _ _ _ h1 h2 h3 h4 h5I]
        by_cases hg : st.slots + cand.slots ≤ maxLevel
        · rw [if_pos hg]
          have hinner : solveDL needed ths maxLevel rest (k - 1)
              (addState st cand) = addState st cand := by
            apply solveDL_silent _ _ _ _ _ _ hg
            intro ext hsub hlen hsat hsl
            have hwfe : ∀ c ∈ ext, ∀ id ∈ c.traitIds,
                id < st.counts.length :=
              fun c hc => hwf' c (hsub.subset hc)
            have hnte : ∀ c ∈ ext, useful c = false →
                ∀ i, i < needed.length → 0 < needed.getD i 0
                  → i ∉ c.traitIds :=
              fun c hc => hnt' c (hsub.subset hc)
            have e2 : getUnsatisfiedMask needed
                (extendState st ext).counts
                = getUnsatisfiedMask needed
                  (extendState (addState st cand) ext).counts := by
              apply extend_unsat_congr _ _ _ _
                (applyCandCounts_length cand st.counts).symm hwfe
              intro i hi hpos
              have hni : i ∉ cand.traitIds :=
                hnt cand (List.mem_cons_self _ _) huf i hi hpos
              exact (applyCandCounts_getD_not_mem cand st.counts i hni).symm
            have e1 : getUnsatisfiedMask needed
                (extendState st (ext.filter useful)).counts
                = getUnsatisfiedMask needed (extendState st ext).counts :=
              extend_filter_unsat needed useful st ext hwfe hnte
            have hslF : (extendState st (ext.filter useful)).slots
                ≤ maxLevel := by
              rw [extendState_slots]
              rw [extendState_slots] at hsl
              have hadd : (addState st cand).slots = st.slots + cand.slots :=
                rfl
              rw [hadd] at hsl
              have := sum_map_filter_le_nat useful ext (fun c => c.slots)
              omega
            have hk := hminS (ext.filter useful) (hsub.filter useful)
              (by rw [e1, e2]; exact hsat) hslF
            have hlenF : (ext.filter useful).length ≤ ext.length :=
              List.length_filter_le _ _
            omega
          rw [hinner]
          have hid : ({ st with results := (addState st cand).results }
              : SState) = st := rfl
          rw [hid]
          exact ih k st hcm' hwf' hnt' (Nat.le_of_not_le h4) hminS
        · rw [if_neg hg]
          exact ih k st hcm' hwf' hnt' (Nat.le_of_not_le h4) hminS

/-- Dropping the useless candidates changes nothing across the whole
iterative-deepening loop: each silent depth certifies (via completeness on
the filtered list) that the next depth's minimality side condition holds. -/
theorem iddfsAux_filter_useless (needed : List Int) (ths : List (List Int))
    (maxLevel : Nat) (useful : Cand → Bool) (cands : List Cand) :
    ∀ (fuel d : Nat) (st : SState),
      (∀ c ∈ cands, 1 ≤ c.slots) →
      (∀ c ∈ cands, ∀ id ∈ c.traitIds, c.mask.testBit (id % 32) = true) →
      (∀ c ∈ cands, ∀ id ∈ c.traitIds, id < st.counts.length) →
      (∀ c ∈ cands, useful c = false →
        ∀ i, i < needed.length → 0 < needed.getD i 0 → i ∉ c.traitIds) →
      st.slots ≤ maxLevel →
      (∀ ext, ext.Sublist (cands.filter useful) →
        getUnsatisfiedMask needed (extendState st ext).counts = 0 →
        (extendState st ext).slots ≤ maxLevel → d ≤ ext.length) →
      iddfsAux needed ths maxLevel cands fuel d st
        = iddfsAux needed ths maxLevel (cands.filter useful) fuel d st := by
  intro fuel
  induction fuel with
  | zero => intro d st _ _ _ _ _ _; rfl
  | succ fuel ih =>
    intro d st hcs hcm hwf hnt hslots hmin
    rw [iddfsAux_succ, iddfsAux_succ]
    by_cases hres0 : 0 < st.results.length
    · rw [if_pos hres0, if_pos hres0]
    · rw [if_neg hres0, if_neg hres0]
      have hstar := solveDL_filter_useless needed ths maxLevel useful cands
        d st hcm hwf hnt hslots hmin
      rw [hstar]
      obtain ⟨new, hsh⟩ :=
        solveDL_shape needed ths maxLevel (cands.filter useful) d st
      by_cases hres :
          (solveDL needed ths maxLevel (cands.filter useful) d st).results = []
      · apply ih (d + 1)
        · exact hcs
        · exact hcm
        · intro c hc id hid
          rw [hsh]
          exact hwf c hc id hid
        · exact hnt
        · rw [hsh]
          exact hslots
        · intro ext hsub hsat hsl
          by_contra hlt
          push_neg at hlt
          have hsat' :
              getUnsatisfiedMask needed (extendState st ext).counts = 0 := by
            rw [hsh, extendState_set_results] at hsat
            exact hsat
          have hsl' : (extendState st ext).slots ≤ maxLevel := by
            rw [hsh, extendState_set_results] at hsl
            exact hsl
          exact solveDL_complete needed ths maxLevel (cands.filter useful)
            d st ext hsub (by omega)
            (fun c hc => hcs c (List.mem_of_mem_filter hc))
            (fun c hc => hcm c (List.mem_of_mem_filter hc))
            hsat' hsl' hres
      · rw [iddfsAux_of_nonempty _ _ _ _ _ _ _ hres,
          iddfsAux_of_nonempty _ _ _ _ _ _ _ hres]

theorem exists_testBit_of_ne_zero (m : Nat) (h : m ≠ 0) :
    ∃ b, m.testBit b = true := by
  by_contra hall
  push_neg at hall
  apply h
  apply nat_eq_zero_of_testBit
  intro b
  cases hb : m.testBit b with
  | false => rfl
  | true => exact (hall b hb).elim

/-- Among the candidates kept by the filter with the wider needed mask,
keeping exactly those that also intersect the narrower mask yields the
candidate list of the narrower call. -/
theorem candRaw_mask_restrict (keys : List String)
    (champions lockedL bannedL : List Champ) (mI mE : Nat)
    (hmask : ∀ b, mE.testBit b = true → mI.testBit b = true) :
    (candRaw keys champions lockedL bannedL mI true).filter
        (fun c => c.mask &&& mE != 0)
      = candRaw keys champions lockedL bannedL mE true := by
  unfold candRaw
  rw [List.filter_filter]
  apply List.filter_congr
  intro c _
  by_cases hb : bannedL.contains c.original
  · rw [if_pos hb, if_pos hb, Bool.and_false]
  · rw [if_neg hb, if_neg hb]
    by_cases hl : lockedL.contains c.original
    · rw [if_pos hl, if_pos hl, Bool.and_false]
    · rw [if_neg hl, if_neg hl, if_pos rfl, if_pos rfl]
      cases hE : (c.mask &&& mE != 0) with
      | false => rw [Bool.false_and]
      | true =>
        rw [Bool.true_and]
        have hne : c.mask &&& mE ≠ 0 := bne_iff_ne.mp hE
        obtain ⟨b, hbb⟩ := exists_testBit_of_ne_zero _ hne
        rw [Nat.testBit_land] at hbb
        have hcm : c.mask.testBit b = true := by
          cases hc1 : c.mask.testBit b
          · rw [hc1] at hbb
            cases hbb
          · rfl
        have hme : mE.testBit b = true := by
          cases hc2 : mE.testBit b
          · rw [hc2, Bool.and_false] at hbb
            cases hbb
          · rfl
        have hbi : (c.mask &&& mI).testBit b = true := by
          rw [Nat.testBit_land, hcm, hmask b hme]
          rfl
        exact bne_iff_ne.mpr (nat_ne_zero_of_testBit hbi)

/-- Two calls with the same needed-count vector, both with requirements
present, return the same raw result list as soon as every bit of the second
call's needed mask is a bit of the first call's needed mask: the extra
candidates admitted by the wider mask touch no positive-target trait. -/
theorem searchRaw_mask_restrict (tr : List (String × List Int))
    (maxLevel : Nat) (reqsI reqsE : List Req)
    (lockedL bannedL champions : List Champ)
    (hneed : neededOf tr reqsI = neededOf tr reqsE)
    (hreqI : hasReqOf tr reqsI = true) (hreqE : hasReqOf tr reqsE = true)
    (hmask : ∀ b, (nmaskOf tr reqsE).testBit b = true
      → (nmaskOf tr reqsI).testBit b = true) :
    searchRaw tr maxLevel reqsI lockedL bannedL champions
      = searchRaw tr maxLevel reqsE lockedL bannedL champions := by
  have hcands : candsOf tr reqsE lockedL bannedL champions
      = (candsOf tr reqsI lockedL bannedL champions).filter
          (fun c => c.mask &&& nmaskOf tr reqsE != 0) := by
    unfold candsOf candListOf
    rw [hreqI, hreqE, filter_sortByCost,
      candRaw_mask_restrict (tkeys tr) champions lockedL bannedL _ _ hmask]
  rw [searchRaw_eq, searchRaw_eq]
  by_cases hguard : maxLevel < (st0Of tr lockedL).slots
  · rw [if_pos hguard, if_pos hguard]
  · rw [if_neg hguard, if_neg hguard, hcands, ← hneed]
    have hdr := iddfsAux_filter_useless (neededOf tr reqsI)
      (buildThresholds tr) maxLevel
      (fun c => c.mask &&& nmaskOf tr reqsE != 0)
      (candsOf tr reqsI lockedL bannedL champions)
      (maxLevel - (st0Of tr lockedL).slots + 1) 0 (st0Of tr lockedL)
      (fun c hc => candListOf_wf_slots (tkeys tr) champions lockedL bannedL
        _ _ c hc)
      (fun c hc => candListOf_wf_mask (tkeys tr) champions lockedL bannedL
        _ _ c hc)
      (by
        intro c hc id hid
        rw [st0_counts_eq, teamCountsVec_length]
        exact candListOf_wf_ids (tkeys tr) champions lockedL bannedL
          _ _ c hc id hid)
      (by
        intro c hc hcu i hi hpos
        intro hid
        have hcu' : (c.mask &&& nmaskOf tr reqsE != 0) = false := hcu
        have h0 : c.mask &&& nmaskOf tr reqsE = 0 := by
          by_contra hne
          rw [bne_iff_ne.mpr hne] at hcu'
          cases hcu'
        have hmaskbit : c.mask.testBit (i % 32) = true :=
          candListOf_wf_mask (tkeys tr) champions lockedL bannedL
            _ _ c hc i hid
        rw [hneed] at hpos
        have hEbit : (nmaskOf tr reqsE).testBit (i % 32) = true :=
          reqMask_of_needed_pos (tkeys tr) reqsE i hpos
        have hbit : (c.mask &&& nmaskOf tr reqsE).testBit (i % 32) = true := by
          rw [Nat.testBit_land, hmaskbit, hEbit]
          rfl
        exact nat_ne_zero_of_testBit hbit h0)
      (Nat.le_of_not_lt hguard)
      (fun ext _ _ _ => Nat.zero_le _)
    rw [hdr]

/-- Removing a requirement entry whose trait is not in the catalog leaves
`searchRaw` unchanged: the entry is skipped by the `forEach` entirely. -/
theorem searchRaw_skip_unknown (tr : List (String × List Int))
    (maxLevel : Nat) (pre post : List Req) (e : Req)
    (lockedL bannedL champions : List Champ)
    (he : traitToId (tkeys tr) e.trait = none) :
    searchRaw tr maxLevel (pre ++ e :: post) lockedL bannedL champions
      = searchRaw tr maxLevel (pre ++ post) lockedL bannedL champions := by
  show searchCore tr maxLevel lockedL bannedL champions
      (reqState (tkeys tr) (pre ++ e :: post)).1
      (reqState (tkeys tr) (pre ++ e :: post)).2.1
      (reqState (tkeys tr) (pre ++ e :: post)).2.2
    = searchCore tr maxLevel lockedL bannedL champions
      (reqState (tkeys tr) (pre ++ post)).1
      (reqState (tkeys tr) (pre ++ post)).2.1
      (reqState (tkeys tr) (pre ++ post)).2.2
  rw [reqState_skip_unknown (tkeys tr) pre post e he]

/-- C7 as stated is false for a target-0 entry naming the same trait as an
earlier entry: the later row overwrites the earlier positive target
(last-write-wins), so removing it changes the outcome. With pool
`[champU "u"]` the requirement list `[X ≥ 2, X ≥ 0]` is trivially satisfied
by the empty team while `[X ≥ 2]` alone is infeasible. -/
theorem c7_claim_counterexample :
    search rulesX 4 [{ trait := "X", target := 2 },
        { trait := "X", target := 0 }] [] [] [champU "u"]
      ≠ search rulesX 4 [{ trait := "X", target := 2 }] [] [] [champU "u"] := by
  decide

/-- C7 (amended): a requirement entry is a no-op — `search` returns exactly
the same result list as when the entry is omitted — whenever its trait name
is absent from the catalog, or its target is 0 and no other entry in the
requirement list names the same trait. -/
theorem c7_noop_requirements (tr : List (String × List Int)) (maxLevel : Nat)
    (pre post : List Req) (e : Req) (lockedL bannedL champions : List Champ)
    (h : traitToId (tkeys tr) e.trait = none
      ∨ (e.target = 0 ∧ ∀ q ∈ pre ++ post, q.trait ≠ e.trait)) :
    search tr maxLevel (pre ++ e :: post) lockedL bannedL champions
      = search tr maxLevel (pre ++ post) lockedL bannedL champions := by
  have hraw : searchRaw tr maxLevel (pre ++ e :: post) lockedL bannedL
        champions
      = searchRaw tr maxLevel (pre ++ post) lockedL bannedL champions := by
    rcases h with he | ⟨h0, hno⟩
    · exact searchRaw_skip_unknown tr maxLevel pre post e lockedL bannedL
        champions he
    · cases hid : traitToId (tkeys tr) e.trait with
      | none =>
        exact searchRaw_skip_unknown tr maxLevel pre post e lockedL bannedL
          champions hid
      | some id0 =>
        have hneed : neededOf tr (pre ++ e :: post)
            = neededOf tr (pre ++ post) :=
          reqState_counts_skip_zero (tkeys tr) pre post e h0 hno
        by_cases hE : hasReqOf tr (pre ++ post) = true
        · have hreqI : hasReqOf tr (pre ++ e :: post) = true :=
            (reqState_hasReq (tkeys tr) (pre ++ e :: post)).mpr
              ⟨e, List.mem_append_right _ (List.mem_cons_self _ _),
                by rw [hid]; simp⟩
          have hmask : ∀ b,
              (nmaskOf tr (pre ++ post)).testBit b = true
                → (nmaskOf tr (pre ++ e :: post)).testBit b = true := by
            intro b hb
            obtain ⟨q, hq, id, hqid, hb32⟩ :=
              (reqState_mask_testBit (tkeys tr) (pre ++ post) b).mp hb
            refine (reqState_mask_testBit (tkeys tr) (pre ++ e :: post) b).mpr
              ⟨q, ?_, id, hqid, hb32⟩
            rcases List.mem_append.mp hq with hq' | hq'
            · exact List.mem_append_left _ hq'
            · exact List.mem_append_right _ (List.mem_cons_of_mem _ hq')
          exact searchRaw_mask_restrict tr maxLevel (pre ++ e :: post)
            (pre ++ post) lockedL bannedL champions hneed hreqI hE hmask
        · have hallE : ∀ q ∈ pre ++ post,
              traitToId (tkeys tr) q.trait = none := by
            intro q hq
            cases hqid : traitToId (tkeys tr) q.trait with
            | none => rfl
            | some j =>
              exact absurd ((reqState_hasReq (tkeys tr) (pre ++ post)).mpr
                ⟨q, hq, by rw [hqid]; simp⟩) hE
          have hrepE : neededOf tr (pre ++ post)
              = List.replicate (tkeys tr).length 0 := by
            show (reqState (tkeys tr) (pre ++ post)).1 = _
            unfold reqState
            rw [reqFold_all_unknown (tkeys tr) (pre ++ post) hallE]
          have hI0 : getUnsatisfiedMask (neededOf tr (pre ++ e :: post))
              (st0Of tr lockedL).counts = 0 := by
            rw [hneed, hrepE]
            exact unsat_replicate_zero _ _
          have hE0 : getUnsatisfiedMask (neededOf tr (pre ++ post))
              (st0Of tr lockedL).counts = 0 := by
            rw [hrepE]
            exact unsat_replicate_zero _ _
          rw [searchRaw_immediate tr maxLevel _ lockedL bannedL champions hI0,
            searchRaw_immediate tr maxLevel _ lockedL bannedL champions hE0]
  unfold search
  rw [hraw]

theorem c7_noop_requirements_witness :
    (traitToId (tkeys rulesXY) "Z" = none
      ∨ ((0 : Int) = 0 ∧ ∀ q ∈ [({ trait := "X", target := 2 } : Req)],
          q.trait ≠ "Z"))
    ∧ search rulesXY 4 [{ trait := "X", target := 2 },
          { trait := "Z", target := 0 }] [] [] [champU "u"]
      = search rulesXY 4 [{ trait := "X", target := 2 }] [] [] [champU "u"] :=
  ⟨Or.inl (by decide),
    c7_noop_requirements rulesXY 4 [{ trait := "X", target := 2 }] []
      { trait := "Z", target := 0 } [] [] [champU "u"] (Or.inl (by decide))⟩
